import Mathlib

/-!
# Verification of the Chekaru voice generator core logic

Shallow embedding of `src/chekaru_voice_generator.py`:

* the voice-catalog resolver (`LOCAL_VOICE_OPTIONS`, `fetch_community_voices`,
  `get_voice_catalog`),
* the text-splitting step (`textwrap.wrap(text, width=250)` from CPython's
  standard library, with the default option values, which is what the code
  calls at line 163),
* the generation worker (`generate_voice` / `worker`) and the preview worker
  (`preview_voice` / `worker_preview`).

Python strings are modelled as `List Char`, dictionaries `{"id":…, "name":…}`
as structures, numpy audio arrays as `List Int`, and fallible Python code as
`Except`.  Character classes (`\w`, `[^\d\W]`) are modelled for ASCII text.
-/

namespace Chekaru

/-- A voice entry, i.e. a dict `{"id": …, "name": …}` (spec: `VoiceEntry`). -/
structure VoiceEntry where
  id : String
  name : String
deriving DecidableEq

/-- The fixed built-in list `LOCAL_VOICE_OPTIONS` (lines 40–49). -/
def LOCAL_VOICE_OPTIONS : List VoiceEntry :=
  [ ⟨"v2/en_speaker_0", "Deep Male (English)"⟩,
    ⟨"v2/en_speaker_1", "Warm Female (English)"⟩,
    ⟨"v2/en_speaker_2", "Young Male (English)"⟩,
    ⟨"v2/en_speaker_3", "Bright Female (English)"⟩,
    ⟨"v2/en_speaker_4", "Calm Narrator (English)"⟩,
    ⟨"v2/en_speaker_5", "Energetic Performer (English)"⟩,
    ⟨"v2/en_speaker_6", "Cinematic Deep Tone (English)"⟩,
    ⟨"v2/en_speaker_7", "Soft Female (English)"⟩ ]

/-- A raw JSON object of the remote payload.  Only the presence or absence of
the two keys the code reads (`v["id"]`, `v["name"]`) is relevant; a missing
key makes the subscript raise `KeyError`. -/
structure RawEntry where
  id? : Option String
  name? : Option String
deriving DecidableEq

/-- Why `requests.get` may raise (network error, or the 10 s timeout). -/
inductive NetErr where
  | connectionError
  | timeout
deriving DecidableEq

/-- The body of an HTTP response, as far as the code observes it. -/
inductive RespBody where
  /-- `resp.json()` raises (unparseable payload). -/
  | invalid
  /-- `resp.json()` parses, but not to a list of dicts, so the comprehension
  `[{…} for v in data]` raises. -/
  | notAList
  /-- `resp.json()` parses to a list of objects. -/
  | entries (l : List RawEntry)
deriving DecidableEq

/-- Everything the outside world can feed to `fetch_community_voices`. -/
inductive FetchOutcome where
  /-- `requests.get(url, timeout=10)` raises. -/
  | netError (e : NetErr)
  /-- A response with a status code and a body. -/
  | resp (status : Nat) (body : RespBody)
deriving DecidableEq

/-- `{"id": v["id"], "name": v["name"]}` for one entry: raises `KeyError`
(modelled as `.error ()`) when either key is missing. -/
def extractEntry (v : RawEntry) : Except Unit VoiceEntry :=
  match v.id?, v.name? with
  | some i, some n => .ok ⟨i, n⟩
  | _, _ => .error ()

/-- The body of the `try:` block of `fetch_community_voices` (lines 56–60):
fetch, check `status_code == 200`, parse, build the comprehension.  An
`.error` means an exception escaped the `try` body.  If the status is not
200 the body finishes without returning, which the caller turns into `[]`. -/
def fetchTryBody (o : FetchOutcome) : Except Unit (List VoiceEntry) :=
  match o with
  | .netError _ => .error ()
  | .resp status body =>
    if status = 200 then
      match body with
      | .invalid => .error ()
      | .notAList => .error ()
      | .entries l => l.mapM extractEntry
    else
      .ok []

/-- `fetch_community_voices` (lines 54–63): the `except Exception` clause
swallows every exception and the function returns `[]`. -/
def fetch_community_voices (o : FetchOutcome) : List VoiceEntry :=
  match fetchTryBody o with
  | .ok l => l
  | .error _ => []

/-- `ids = {v["id"] for v in LOCAL_VOICE_OPTIONS}` generalised over the localL
list (line 72). -/
def localIds (localL : List VoiceEntry) : List String :=
  localL.map VoiceEntry.id

/-- `merged = LOCAL_VOICE_OPTIONS + [v for v in remote_voices if v["id"] not in ids]`
(line 73), generalised over the local list. -/
def mergeVoices (localL remote : List VoiceEntry) : List VoiceEntry :=
  localL ++ remote.filter (fun v => !(localIds localL).contains v.id)

/-- `get_voice_catalog` (lines 68–77) generalised over the local list: merge
when the fetched list is non-empty (Python truthiness of `remote_voices`),
otherwise fall back to the local list alone. -/
def get_voice_catalog_with (localL : List VoiceEntry) (o : FetchOutcome) :
    List VoiceEntry :=
  let remote := fetch_community_voices o
  if remote.isEmpty then localL else mergeVoices localL remote

/-- `get_voice_catalog` as written, with the built-in local list. -/
def get_voice_catalog (o : FetchOutcome) : List VoiceEntry :=
  get_voice_catalog_with LOCAL_VOICE_OPTIONS o

/-- Spec-side selection, following the spec's words: "exactly the members of
R whose id is not in L's id set, in R's original relative order". -/
def specSelect (localL : List VoiceEntry) : List VoiceEntry → List VoiceEntry
  | [] => []
  | r :: rs =>
    if r.id ∈ (localL.map VoiceEntry.id) then specSelect localL rs
    else r :: specSelect localL rs

/-! ## The text splitter: CPython `textwrap.wrap` with default options

`generate_voice.worker` calls `textwrap.wrap(text_prompt, width=250)`
(line 163).  The definitions below port CPython 3.11 `textwrap.py` with the
default option values (`expand_tabs=True`, `tabsize=8`,
`replace_whitespace=True`, `fix_sentence_endings=False`,
`break_long_words=True`, `drop_whitespace=True`, `break_on_hyphens=True`,
no indents, `max_lines=None`).  The regex character classes `\w` and
`[^\d\W]` are modelled for ASCII characters. -/

/-- `textwrap._whitespace = '\t\n\x0b\x0c\r '`. -/
def isPyWS (c : Char) : Bool :=
  c = '\t' || c = '\n' || c = '\x0b' || c = '\x0c' || c = '\r' || c = ' '

/-- The regex class `\w` (ASCII): letters, digits, underscore. -/
def isWordCh (c : Char) : Bool :=
  c.isAlphanum || c = '_'

/-- The regex class `[^\d\W]` (ASCII): word characters that are not digits,
i.e. letters and underscore (`textwrap`'s `letter`). -/
def isLetterCh (c : Char) : Bool :=
  isWordCh c && !c.isDigit

/-- The regex class `[\w!"\'&.,?]` (`textwrap`'s `word_punct`). -/
def isWordPunct (c : Char) : Bool :=
  isWordCh c || c = '!' || c = '"' || c = '\'' || c = '&' || c = '.' ||
  c = ',' || c = '?'

/-- `str.expandtabs(tabsize)` for `tabsize > 0`: a tab becomes
`tabsize - col % tabsize` spaces; `\n` and `\r` reset the column. -/
def expandTabsGo (tabsize : Nat) : Nat → List Char → List Char
  | _, [] => []
  | col, c :: cs =>
    if c = '\t' then
      let n := tabsize - col % tabsize
      List.replicate n ' ' ++ expandTabsGo tabsize (col + n) cs
    else if c = '\n' ∨ c = '\r' then
      c :: expandTabsGo tabsize 0 cs
    else
      c :: expandTabsGo tabsize (col + 1) cs

/-- `TextWrapper._munge_whitespace`: expand tabs, then translate every
whitespace character to a space. -/
def munge (s : List Char) : List Char :=
  (expandTabsGo 8 0 s).map (fun c => if isPyWS c then ' ' else c)

/-- Test a character class at an absolute position (false past the end). -/
def testAt (p : Char → Bool) (s : List Char) (i : Nat) : Bool :=
  match s.get? i with
  | some c => p c
  | none => false

/-- Is the character at position `i` exactly `c0`? -/
def charIs (s : List Char) (i : Nat) (c0 : Char) : Bool :=
  match s.get? i with
  | some c => c = c0
  | none => false

/-- Length of the maximal prefix run satisfying `p`. -/
def runLen (p : Char → Bool) : List Char → Nat
  | [] => 0
  | c :: cs => if p c then runLen p cs + 1 else 0

/-- Length of the maximal run of hyphens starting at position `i`. -/
def hyphenRunAt (s : List Char) (i : Nat) : Nat :=
  runLen (fun c => c = '-') (s.drop i)

/-- The `(?=%(ws)s|\Z)` branch of the word rule: position `e` is whitespace
or the end of the text. -/
def endBranch (s : List Char) (e : Nat) : Bool :=
  decide (s.length ≤ e) || testAt isPyWS s e

/-- The hyphenated-word branch of the word rule, for a match starting at `i`
ending at `e`: a consumed `-` at `e - 1` with at least one `nws` character
before it, the lookbehind `(?<=lt lt -)|(?<=lt - lt -)`, and the lookahead
`(?= lt -? lt)`. -/
def hyphenBranch (s : List Char) (i e : Nat) : Bool :=
  decide (i + 2 ≤ e) && charIs s (e - 1) '-' &&
  ((decide (3 ≤ e) && testAt isLetterCh s (e - 3) && testAt isLetterCh s (e - 2)) ||
   (decide (4 ≤ e) && testAt isLetterCh s (e - 4) && charIs s (e - 3) '-' &&
    testAt isLetterCh s (e - 2))) &&
  testAt isLetterCh s e &&
  (testAt isLetterCh s (e + 1) ||
   (charIs s (e + 1) '-' && testAt isLetterCh s (e + 2)))

/-- The `(?<=%(wp)s)(?=-{2,}\w)` branch of the word rule: the word stops at
`e` right before an em-dash (a run of two or more hyphens followed by a word
character), the consumed part ending in a word-punct character. -/
def emdashEndBranch (s : List Char) (i e : Nat) : Bool :=
  decide (i + 1 ≤ e) && testAt isWordPunct s (e - 1) &&
  (let h := hyphenRunAt s e
   decide (2 ≤ h) && testAt isWordCh s (e + h))

/-- Does the word rule (lazy `nws+?` with its three tail alternatives) admit
a match from `i` ending at `e`? -/
def wordBreakAt (s : List Char) (i e : Nat) : Bool :=
  hyphenBranch s i e || endBranch s e || emdashEndBranch s i e

/-- Scan for the least `e` (starting from the given one) admitting a word
break; the lazy `nws+?` takes the earliest ending position. -/
def findWordEnd (s : List Char) (i : Nat) : Nat → Nat → Nat
  | 0, e => e
  | fuel + 1, e => if wordBreakAt s i e then e else findWordEnd s i fuel (e + 1)

/-- One pass of `wordsep_re` matching from position `i` (fuel-indexed, the
fuel only needs to exceed the number of chunks produced).  The alternation:
a maximal whitespace run, the em-dash-between-words rule
`(?<=%(wp)s)-{2,}(?=\w)`, or the word rule. -/
def splitGo (s : List Char) : Nat → Nat → List (List Char)
  | 0, _ => []
  | fuel + 1, i =>
    if i < s.length then
      if testAt isPyWS s i then
        (s.drop i).take (runLen isPyWS (s.drop i)) ::
          splitGo s fuel (i + runLen isPyWS (s.drop i))
      else
        if decide (1 ≤ i) && testAt isWordPunct s (i - 1) &&
            decide (2 ≤ hyphenRunAt s i) &&
            testAt isWordCh s (i + hyphenRunAt s i) then
          (s.drop i).take (hyphenRunAt s i) ::
            splitGo s fuel (i + hyphenRunAt s i)
        else
          (s.drop i).take (findWordEnd s i (s.length + 1) (i + 1) - i) ::
            splitGo s fuel (findWordEnd s i (s.length + 1) (i + 1))
    else []

/-- `TextWrapper._split` on munged text: `wordsep_re.split` with empty
strings filtered out (every chunk the scanner emits is non-empty). -/
def pySplit (s : List Char) : List (List Char) :=
  splitGo s (s.length + 1) 0

/-- Is the chunk pure whitespace (Python `chunk.strip() == ''`)? -/
def isWSChunk (c : List Char) : Bool :=
  c.all isPyWS

/-- Total length of a list of chunks. -/
def sumLen (cs : List (List Char)) : Nat :=
  (cs.map List.length).sum

/-- The inner `while chunks:` loop of `_wrap_chunks`: greedily move chunks
onto the current line while they fit within `width`. -/
def takeChunks (width : Nat) : Nat → List (List Char) → List (List Char) × List (List Char)
  | _, [] => ([], [])
  | curLen, c :: cs =>
    if curLen + c.length ≤ width then
      match takeChunks width (curLen + c.length) cs with
      | (acc, rest) => (c :: acc, rest)
    else
      ([], c :: cs)

/-- Left-to-right scan keeping the index of the last hyphen seen. -/
def rfindHyphenGo : List Char → Nat → Option Nat → Option Nat
  | [], _, best => best
  | c :: cs, j, best =>
    rfindHyphenGo cs (j + 1) (if c = '-' then some j else best)

/-- `chunk.rfind('-', 0, stop)`: the greatest index `j < stop` holding a
hyphen, if any. -/
def pyRfindHyphen (chunk : List Char) (stop : Nat) : Option Nat :=
  rfindHyphenGo (chunk.take stop) 0 none

/-- The cut position chosen by `_handle_long_word`: the space left on the
current line, except that a hyphen inside that window (with some non-hyphen
character before it) moves the cut to just after the last such hyphen. -/
def hlwEnd (spaceLeft : Nat) (chunk : List Char) : Nat :=
  if spaceLeft < chunk.length then
    match pyRfindHyphen chunk spaceLeft with
    | some hy =>
      if decide (1 ≤ hy) && (chunk.take hy).any (fun c => c != '-') then hy + 1
      else spaceLeft
    | none => spaceLeft
  else spaceLeft

/-- `TextWrapper._handle_long_word` with `break_long_words=True` and
`break_on_hyphens=True`: split the head chunk at the cut position computed
from the space left on the current line (`space_left = width - cur_len`,
or 1 when `width < 1`).  Returns the piece appended to the current line and
the remainder of the chunk. -/
def handleLongWord (width curLen : Nat) (chunk : List Char) :
    List Char × List Char :=
  (chunk.take (hlwEnd (if width < 1 then 1 else width - curLen) chunk),
   chunk.drop (hlwEnd (if width < 1 then 1 else width - curLen) chunk))

/-- One iteration of `_wrap_chunks` without the trailing-whitespace drop:
the inner `while chunks:` loop (`takeChunks`) followed by the
`if chunks and len(chunks[-1]) > width: self._handle_long_word(…)` step.
Returns the current line (as chunks) and the remaining chunks. -/
def wrapStep (width : Nat) (chunks1 : List (List Char)) :
    List (List Char) × List (List Char) :=
  match takeChunks width 0 chunks1 with
  | (cur, r :: rs) =>
    if width < r.length then
      match handleLongWord width (sumLen cur) r with
      | (piece, restchunk) => (cur ++ [piece], restchunk :: rs)
    else (cur, r :: rs)
  | (cur, []) => (cur, [])

/-- `if drop_whitespace and cur_line and cur_line[-1].strip() == '': del cur_line[-1]`. -/
def dropTrailingWS (cur : List (List Char)) : List (List Char) :=
  match cur.getLast? with
  | some lastc => if isWSChunk lastc then cur.dropLast else cur
  | none => cur

/-- The outer `while chunks:` loop of `_wrap_chunks` with the default
options (`drop_whitespace=True`, `max_lines=None`, empty indents); the list
of pending chunks is consumed front-first (the Python code reverses the list
and pops from the end).  `hasLines` tracks Python's `lines` being non-empty
(for the leading-whitespace drop); the fuel is structural and chosen large
enough by the caller. -/
def wrapChunksGo (width : Nat) : Nat → Bool → List (List Char) → List (List Char)
  | 0, _, _ => []
  | _ + 1, _, [] => []
  | fuel + 1, hasLines, c :: cs =>
    match if hasLines && isWSChunk c then cs else c :: cs with
    | [] => []
    | c1 :: cs1 =>
      match dropTrailingWS (wrapStep width (c1 :: cs1)).1,
          (wrapStep width (c1 :: cs1)).2 with
      | [], rest2 => wrapChunksGo width fuel hasLines rest2
      | l :: ls, rest2 => ((l :: ls).flatten) :: wrapChunksGo width fuel true rest2

/-- `textwrap.wrap(text, width)` with the default options: munge, split into
chunks, wrap.  The fuel strictly dominates the loop measure
`sumLen cs + cs.length`. -/
def textwrapWrap (width : Nat) (s : List Char) : List (List Char) :=
  let cs := pySplit (munge s)
  wrapChunksGo width (sumLen cs + cs.length + 1) false cs

/-! ## Normalized tokens

`tokens s` is the list of maximal whitespace-free runs of `s`: the
whitespace-delimited words.  Two texts are equal "modulo whitespace
normalization" exactly when they have the same tokens. -/

/-- One step of the right fold computing tokens: `acc.1` holds the completed
tokens to the right, `acc.2` the word prefix currently being read. -/
def tokensStep (c : Char) (acc : List (List Char) × List Char) :
    List (List Char) × List Char :=
  if isPyWS c then
    (if acc.2.isEmpty then acc.1 else acc.2 :: acc.1, [])
  else
    (acc.1, c :: acc.2)

/-- Right fold computing the tokens of a text, with the pending word. -/
def tokensAux (s : List Char) : List (List Char) × List Char :=
  s.foldr tokensStep ([], [])

/-- The whitespace-delimited words of a text, in order. -/
def tokens (s : List Char) : List (List Char) :=
  let a := tokensAux s
  if a.2.isEmpty then a.1 else a.2 :: a.1

/-- Concatenate chunks with single spaces between them. -/
def joinWithSpace : List (List Char) → List Char
  | [] => []
  | [l] => l
  | l :: ls => l ++ ' ' :: joinWithSpace ls

/-! ## The generation and preview workflows -/

/-- A numpy audio array, as a list of samples. -/
abbrev Audio := List Int

/-- Python `str.strip()` on the text-box contents (line 147). -/
def pyStrip (l : List Char) : List Char :=
  ((l.dropWhile isPyWS).reverse.dropWhile isPyWS).reverse

/-- `next((v for v in voice_catalog if v["name"] == selected_name), voice_catalog[0])`
(lines 153 and 200, the same expression in `generate_voice` and
`preview_voice`).  Python evaluates the default `voice_catalog[0]` eagerly,
so an empty catalog raises `IndexError` (`none`); otherwise the first entry
whose name matches is used, defaulting to the first entry. -/
def resolveVoiceEntry (voice_catalog : List VoiceEntry) (selected_name : String) :
    Option VoiceEntry :=
  match voice_catalog with
  | [] => none
  | c :: _ => some ((voice_catalog.find? (fun v => v.name == selected_name)).getD c)

/-- How the `worker` thread of `generate_voice` ends. -/
inductive WorkerStatus where
  /-- `write(filename, …)` ran and the status label shows "Done". -/
  | saved (filename : String)
  /-- The save dialog was dismissed: "Canceled by user.". -/
  | canceled
  /-- An exception was caught: `messagebox.showerror("Error", e)`. -/
  | errorShown (e : String)
deriving DecidableEq

/-- Observable outcome of one run of `worker` (lines 156–191): the
synthesis calls made (chunk text and `history_prompt`, in call order), the
final status, and the file written, if any. -/
structure WorkerResult where
  calls : List (List Char × String)
  status : WorkerStatus
  written : Option (String × Audio)
deriving DecidableEq

/-- The `for i, chunk in enumerate(chunks:)` loop (lines 166–170): call
`generate_audio(chunk, history_prompt=voice_model)` on each chunk in order,
collecting the audio arrays; the first exception aborts the loop.  Returns
the chunks actually passed to the model and the collected buffers or the
error. -/
def runChunks (synth : List Char → String → Except String Audio)
    (voice_model : String) :
    List (List Char) → List (List Char) × Except String (List Audio)
  | [] => ([], .ok [])
  | c :: cs =>
    match synth c voice_model with
    | .error e => ([c], .error e)
    | .ok a =>
      let r := runChunks synth voice_model cs
      (c :: r.1, r.2.map (fun as => a :: as))

/-- `np.concatenate(combined_audio)` (line 173): concatenate the chunk
buffers in order; raises `ValueError` on an empty list. -/
def npConcatenate (l : List Audio) : Except String Audio :=
  if l.isEmpty then .error "need at least one array to concatenate"
  else .ok l.flatten

/-- The `worker` closure of `generate_voice` (lines 156–191): split the
prompt with `textwrap.wrap(text_prompt, width=250)`, synthesize each chunk
in order, merge, then ask for a destination (`saveDialog`; `none` models a
cancelled dialog) and write the file.  Any exception is caught by the
`except` clause: an error message is shown and nothing is written. -/
def worker (synth : List Char → String → Except String Audio)
    (voice_model : String) (saveDialog : Option String)
    (text_prompt : List Char) : WorkerResult :=
  let chunks := textwrapWrap 250 text_prompt
  let tr := runChunks synth voice_model chunks
  let calls := tr.1.map (fun c => (c, voice_model))
  match tr.2 with
  | .error e => ⟨calls, .errorShown e, none⟩
  | .ok audios =>
    match npConcatenate audios with
    | .error e => ⟨calls, .errorShown e, none⟩
    | .ok final_audio =>
      match saveDialog with
      | some filename => ⟨calls, .saved filename, some (filename, final_audio)⟩
      | none => ⟨calls, .canceled, none⟩

/-- Outcome of pressing "Generate Audio" (`generate_voice`, lines 146–193). -/
inductive GenerateResult where
  /-- `messagebox.showwarning("Missing text", …)` and an early `return`:
  nothing else runs. -/
  | warned
  /-- The worker thread was started with the resolved voice id. -/
  | started (voice_model : String) (result : WorkerResult)
deriving DecidableEq

/-- `generate_voice` (lines 146–193): strip the text box; an empty result
shows a warning and returns before any voice resolution or synthesis;
otherwise resolve the voice (an empty catalog would raise `IndexError`,
modelled as `none`) and run the worker. -/
def generate_voice (voice_catalog : List VoiceEntry) (selected_name : String)
    (synth : List Char → String → Except String Audio)
    (saveDialog : Option String) (textBox : List Char) :
    Option GenerateResult :=
  let text_prompt := pyStrip textBox
  if text_prompt.isEmpty then
    some .warned
  else
    match resolveVoiceEntry voice_catalog selected_name with
    | none => none
    | some ve => some (.started ve.id (worker synth ve.id saveDialog text_prompt))

/-- Synthesis calls made by a `generate_voice` outcome. -/
def generateCalls : Option GenerateResult → List (List Char × String)
  | some (.started _ r) => r.calls
  | _ => []

/-- The fixed sample phrase of `preview_voice` (line 210). -/
def preview_sample_text : List Char :=
  "Hello, this is a quick voice preview.".data

/-- Externally observable actions of the preview worker, in order. -/
inductive PreviewEvent where
  /-- `generate_audio(sample_text, history_prompt=voice_model)`. -/
  | synthCall (text : List Char) (voice : String)
  /-- `write(temp_file, SAMPLE_RATE, audio_array)`. -/
  | fileWrite (path : String) (audio : Audio)
  /-- `sa.WaveObject.from_wave_file(temp_file)` … `play_obj.wait_done()`. -/
  | playFile (path : String)
deriving DecidableEq

/-- Outcome of one run of `worker_preview` (lines 203–227): the ordered
event trace, the error surfaced by the `except` clause if any, and the file
system (path ↦ contents) after the run. -/
structure PreviewResult where
  events : List PreviewEvent
  errorShown : Option String
  fs : String → Option Audio

/-- The `worker_preview` closure (lines 203–227): synthesize the fixed
sample phrase, write it to the fixed relative path `preview_sample.wav`
(overwriting whatever was there), then play that file back.  An exception is
caught and shown. -/
def worker_preview (synth : List Char → String → Except String Audio)
    (voice_model : String) (fs : String → Option Audio) : PreviewResult :=
  match synth preview_sample_text voice_model with
  | .error e =>
    ⟨[.synthCall preview_sample_text voice_model], some e, fs⟩
  | .ok audio_array =>
    let temp_file := "preview_sample.wav"
    ⟨[.synthCall preview_sample_text voice_model,
      .fileWrite temp_file audio_array,
      .playFile temp_file],
     none,
     fun p => if p = temp_file then some audio_array else fs p⟩

/-- `preview_voice` (lines 198–229): resolve the voice exactly as
`generate_voice` does, then run the preview worker.  The closure never reads
the text box, so its contents are irrelevant; the `_textBox` parameter
stands for the UI state available but unused. -/
def preview_voice (voice_catalog : List VoiceEntry) (selected_name : String)
    (synth : List Char → String → Except String Audio)
    (fs : String → Option Audio) (_textBox : List Char) :
    Option (String × PreviewResult) :=
  match resolveVoiceEntry voice_catalog selected_name with
  | none => none
  | some ve => some (ve.id, worker_preview synth ve.id fs)

/-- The failure modes of the remote fetch named by the spec: a raised
network error or timeout, a non-200 status, or a payload that does not parse
to a list of objects. -/
def isFetchFailure : FetchOutcome → Bool
  | .netError _ => true
  | .resp s b =>
    if s = 200 then
      match b with
      | .invalid => true
      | .notAList => true
      | .entries _ => false
    else true

/-! ## Auxiliary notions for stating and proving the splitting claims -/

/-- One step of grouping a text into maximal runs of characters of equal
whitespace-ness (the canonical segmentation that `wordsep_re` computes on
hyphen-free text). -/
def segAux (c : Char) : List (List Char) → List (List Char)
  | [] => [[c]]
  | [] :: rs => [c] :: [] :: rs
  | (d :: r) :: rs =>
    if isPyWS c == isPyWS d then (c :: d :: r) :: rs
    else [c] :: (d :: r) :: rs

/-- Maximal-run segmentation of a text by whitespace-ness. -/
def seg (t : List Char) : List (List Char) :=
  t.foldr segAux []

/-- The non-whitespace chunks of a chunk list. -/
def wordChunks (cs : List (List Char)) : List (List Char) :=
  cs.filter (fun r => !isWSChunk r)

/-- A chunk made of whitespace only. -/
def WSChunkP (r : List Char) : Prop :=
  ∀ x ∈ r, isPyWS x = true

/-- Adjacent chunks never being two words: at least one is whitespace. -/
def SepOK (a b : List Char) : Prop :=
  WSChunkP a ∨ WSChunkP b

/-- A well-formed pending chunk for the wrapping loop: non-empty, and
either pure whitespace or a whitespace-free word of at most `width`
characters. -/
def ChunkInv (width : Nat) (r : List Char) : Prop :=
  r ≠ [] ∧ (WSChunkP r ∨ ((∀ x ∈ r, isPyWS x = false) ∧ r.length ≤ width))

/-- Invariant of the pending chunk list in the wrapping loop. -/
def ListInv (width : Nat) (cs : List (List Char)) : Prop :=
  (∀ r ∈ cs, ChunkInv width r) ∧ List.Chain' SepOK cs

/-- 246 copies of `a`, a space, and the 5-character hyphenated word
`xy-zw`: wrapping at width 250 ends the first line with `xy-` and starts
the second with `zw`, splitting a short word at its hyphen. -/
def hyphenCexText : List Char :=
  List.replicate 246 'a' ++ (' ' :: "xy-zw".data)

/-! ## Helper lemmas -/

theorem tokensAux_cons (c : Char) (s : List Char) :
    tokensAux (c :: s) = tokensStep c (tokensAux s) := rfl

theorem tokensStep_absorb (c : Char) (A : List (List Char) × List Char)
    (L : List (List Char)) :
    tokensStep c (A.1 ++ L, A.2) =
      ((tokensStep c A).1 ++ L, (tokensStep c A).2) := by
  unfold tokensStep
  by_cases hws : isPyWS c
  · simp only [if_pos hws]
    by_cases he : A.2.isEmpty <;> simp [he]
  · simp [hws]

theorem foldr_tokensStep_absorb (a : List Char) (L : List (List Char)) :
    a.foldr tokensStep (L, []) = ((tokensAux a).1 ++ L, (tokensAux a).2) := by
  induction a with
  | nil => simp [tokensAux]
  | cons c a ih =>
    rw [List.foldr_cons, ih, tokensAux_cons]
    exact tokensStep_absorb c (tokensAux a) L

theorem tokens_append_ws (a : List Char) (c : Char) (b : List Char)
    (h : isPyWS c = true) :
    tokens (a ++ c :: b) = tokens a ++ tokens b := by
  have h1 : (c :: b).foldr tokensStep ([], []) = (tokens b, []) := by
    show tokensStep c (tokensAux b) = (tokens b, [])
    unfold tokensStep tokens
    rw [if_pos h]
  have h2 : tokensAux (a ++ c :: b) =
      ((tokensAux a).1 ++ tokens b, (tokensAux a).2) := by
    unfold tokensAux
    rw [List.foldr_append, h1]
    exact foldr_tokensStep_absorb a (tokens b)
  unfold tokens
  rw [h2]
  by_cases he : (tokensAux a).2.isEmpty <;> simp [he, tokens]

theorem tokens_cons_ws (c : Char) (s : List Char) (h : isPyWS c = true) :
    tokens (c :: s) = tokens s := by
  simpa using tokens_append_ws [] c s h

theorem tokens_ws_prefix (a s : List Char) (h : ∀ x ∈ a, isPyWS x = true) :
    tokens (a ++ s) = tokens s := by
  induction a with
  | nil => rfl
  | cons c a ih =>
    rw [List.cons_append, tokens_cons_ws _ _ (h c (by simp))]
    exact ih (fun x hx => h x (by simp [hx]))

theorem tokensAux_word (w : List Char) (h : ∀ x ∈ w, isPyWS x = false) :
    tokensAux w = ([], w) := by
  induction w with
  | nil => rfl
  | cons c w ih =>
    rw [tokensAux_cons, ih (fun x hx => h x (by simp [hx]))]
    unfold tokensStep
    rw [if_neg (by simp [h c (by simp)])]

theorem tokens_word (w : List Char) (hne : w ≠ [])
    (h : ∀ x ∈ w, isPyWS x = false) : tokens w = [w] := by
  unfold tokens
  rw [tokensAux_word w h]
  cases w with
  | nil => exact absurd rfl hne
  | cons c w => rfl

theorem tokens_joinWithSpace (ls : List (List Char)) :
    tokens (joinWithSpace ls) = (ls.map tokens).flatten := by
  induction ls with
  | nil => rfl
  | cons l ls ih =>
    cases ls with
    | nil => simp [joinWithSpace]
    | cons l2 ls2 =>
      rw [show joinWithSpace (l :: l2 :: ls2) =
        l ++ ' ' :: joinWithSpace (l2 :: ls2) from rfl]
      rw [tokens_append_ws _ ' ' _ (by decide), ih]
      simp

theorem tokensStep_ws_eq (c c2 : Char) (h : isPyWS c = true)
    (h2 : isPyWS c2 = true) (A : List (List Char) × List Char) :
    tokensStep c A = tokensStep c2 A := by
  unfold tokensStep
  rw [if_pos h, if_pos h2]

theorem tokensStep_ws_idem (c : Char) (h : isPyWS c = true)
    (A : List (List Char) × List Char) :
    tokensStep c (tokensStep c A) = tokensStep c A := by
  unfold tokensStep
  simp [h]

theorem tokensAux_replicate_space (X : List Char) :
    ∀ n, 1 ≤ n →
      tokensAux (List.replicate n ' ' ++ X) = tokensStep ' ' (tokensAux X) := by
  intro n
  induction n with
  | zero => omega
  | succ n ih =>
    intro _
    cases n with
    | zero => rfl
    | succ m =>
      rw [List.replicate_succ, List.cons_append, tokensAux_cons,
        ih (by omega)]
      exact tokensStep_ws_idem ' ' rfl _

theorem tokensAux_expandTabs (s : List Char) :
    ∀ col, tokensAux (expandTabsGo 8 col s) = tokensAux s := by
  induction s with
  | nil => intro col; rfl
  | cons c cs ih =>
    intro col
    unfold expandTabsGo
    by_cases ht : c = '\t'
    · rw [if_pos ht]
      have hm : col % 8 < 8 := Nat.mod_lt _ (by omega)
      rw [tokensAux_replicate_space _ _ (by omega), ih]
      rw [tokensAux_cons, ht]
      exact (tokensStep_ws_eq '\t' ' ' rfl rfl _).symm
    · rw [if_neg ht]
      by_cases hnl : c = '\n' ∨ c = '\r'
      · rw [if_pos hnl, tokensAux_cons, tokensAux_cons, ih]
      · rw [if_neg hnl, tokensAux_cons, tokensAux_cons, ih]

theorem tokensAux_translate (s : List Char) :
    tokensAux (s.map (fun c => if isPyWS c then ' ' else c)) = tokensAux s := by
  induction s with
  | nil => rfl
  | cons c cs ih =>
    rw [List.map_cons, tokensAux_cons, tokensAux_cons, ih]
    by_cases h : isPyWS c = true
    · rw [if_pos h]
      exact tokensStep_ws_eq ' ' c rfl h _
    · rw [if_neg h]

theorem tokens_munge (s : List Char) : tokens (munge s) = tokens s := by
  unfold tokens munge
  rw [tokensAux_translate, tokensAux_expandTabs]

theorem segAux_cons_cons (c d : Char) (r : List Char)
    (rs : List (List Char)) :
    segAux c ((d :: r) :: rs) =
      if isPyWS c == isPyWS d then (c :: d :: r) :: rs
      else [c] :: (d :: r) :: rs := rfl

theorem seg_cons (c : Char) (t : List Char) :
    seg (c :: t) =
      (c :: t.takeWhile (fun x => isPyWS x == isPyWS c)) ::
        seg (t.dropWhile (fun x => isPyWS x == isPyWS c)) := by
  induction t generalizing c with
  | nil => rfl
  | cons d t ih =>
    have hstep : seg (c :: d :: t) = segAux c (seg (d :: t)) := rfl
    by_cases h : isPyWS d = isPyWS c
    · have hfun : (fun x => isPyWS x == isPyWS d) =
          (fun x => isPyWS x == isPyWS c) := by
        funext x
        rw [h]
      rw [hstep, ih d, hfun, segAux_cons_cons]
      rw [if_pos (by simp [h]), List.takeWhile_cons, List.dropWhile_cons]
      simp [h]
    · rw [hstep, ih d, segAux_cons_cons]
      rw [if_neg (by simp only [beq_iff_eq]; exact fun x => h x.symm),
        List.takeWhile_cons, List.dropWhile_cons]
      have hbeq : (isPyWS d == isPyWS c) = false := by simp [h]
      rw [hbeq]
      simp only [Bool.false_eq_true, if_false]
      rw [← ih d]

theorem dropWhile_head_not (p : Char → Bool) :
    ∀ (l : List Char) (e : Char) (rest : List Char),
      l.dropWhile p = e :: rest → p e = false := by
  intro l
  induction l with
  | nil =>
    intro e rest h
    exact absurd h (by simp)
  | cons a l ih =>
    intro e rest h
    rw [List.dropWhile_cons] at h
    by_cases hp : p a = true
    · rw [if_pos hp] at h
      exact ih e rest h
    · rw [if_neg hp] at h
      injection h with h1 h2
      subst h1
      simpa using hp

theorem seg_flatten_aux :
    ∀ (n : Nat) (t : List Char), t.length ≤ n → (seg t).flatten = t := by
  intro n
  induction n with
  | zero =>
    intro t ht
    have : t = [] := List.length_eq_zero.mp (Nat.le_zero.mp ht)
    subst this
    rfl
  | succ n ih =>
    intro t ht
    cases t with
    | nil => rfl
    | cons c t =>
      rw [seg_cons]
      have hlen : (t.dropWhile (fun x => isPyWS x == isPyWS c)).length ≤ n := by
        have h1 := (List.dropWhile_sublist
          (l := t) (fun x => isPyWS x == isPyWS c)).length_le
        have h2 : t.length ≤ n := Nat.le_of_succ_le_succ ht
        omega
      rw [List.flatten_cons, ih _ hlen]
      simp [List.takeWhile_append_dropWhile]

theorem seg_flatten (t : List Char) : (seg t).flatten = t :=
  seg_flatten_aux t.length t le_rfl

theorem seg_uniform_aux :
    ∀ (n : Nat) (t : List Char), t.length ≤ n →
      ∀ r ∈ seg t, r ≠ [] ∧ ∃ b, ∀ x ∈ r, isPyWS x = b := by
  intro n
  induction n with
  | zero =>
    intro t ht
    have : t = [] := List.length_eq_zero.mp (Nat.le_zero.mp ht)
    subst this
    intro r hr
    exact absurd hr (by simp [seg])
  | succ n ih =>
    intro t ht
    cases t with
    | nil =>
      intro r hr
      exact absurd hr (by simp [seg])
    | cons c t =>
      rw [seg_cons]
      intro r hr
      rcases List.mem_cons.mp hr with rfl | hr2
      · refine ⟨by simp, isPyWS c, ?_⟩
        intro x hx
        rcases List.mem_cons.mp hx with rfl | hx2
        · rfl
        · have := List.mem_takeWhile_imp hx2
          simpa using this
      · have hlen : (t.dropWhile (fun x => isPyWS x == isPyWS c)).length ≤ n := by
          have h1 := (List.dropWhile_sublist
            (l := t) (fun x => isPyWS x == isPyWS c)).length_le
          have h2 : t.length ≤ n := Nat.le_of_succ_le_succ ht
          omega
        exact ih _ hlen r hr2

theorem seg_uniform (t : List Char) :
    ∀ r ∈ seg t, r ≠ [] ∧ ∃ b, ∀ x ∈ r, isPyWS x = b :=
  seg_uniform_aux t.length t le_rfl

theorem seg_chain_aux :
    ∀ (n : Nat) (t : List Char), t.length ≤ n →
      List.Chain' SepOK (seg t) := by
  intro n
  induction n with
  | zero =>
    intro t ht
    have : t = [] := List.length_eq_zero.mp (Nat.le_zero.mp ht)
    subst this
    simp [seg]
  | succ n ih =>
    intro t ht
    cases t with
    | nil => simp [seg]
    | cons c t =>
      rw [seg_cons]
      have h2 : t.length ≤ n := Nat.le_of_succ_le_succ ht
      have hlen : (t.dropWhile (fun x => isPyWS x == isPyWS c)).length ≤ n := by
        have h1 := (List.dropWhile_sublist
          (l := t) (fun x => isPyWS x == isPyWS c)).length_le
        omega
      rw [List.chain'_cons']
      refine ⟨?_, ih _ hlen⟩
      intro y hy
      cases hdw : t.dropWhile (fun x => isPyWS x == isPyWS c) with
      | nil =>
        rw [hdw] at hy
        simp [seg] at hy
      | cons e dw =>
        rw [hdw, seg_cons] at hy
        simp only [List.head?_cons, Option.mem_def, Option.some_inj] at hy
        subst hy
        have hne : isPyWS e = false ∨ isPyWS e = true := by
          cases isPyWS e <;> simp
        have hec : (isPyWS e == isPyWS c) = false :=
          dropWhile_head_not _ t e dw hdw
        have hneq : isPyWS e ≠ isPyWS c := by
          intro hcon
          rw [hcon] at hec
          simp at hec
        by_cases hc : isPyWS c = true
        · left
          intro x hx
          rcases List.mem_cons.mp hx with rfl | hx2
          · exact hc
          · have := List.mem_takeWhile_imp hx2
            rw [hc] at this
            simpa using this
        · right
          have he : isPyWS e = true := by
            cases hb : isPyWS e
            · rw [hb] at hneq
              cases hb2 : isPyWS c
              · exact absurd (by rw [hb2]) hneq
              · exact absurd hb2 hc
            · rfl
          intro x hx
          rcases List.mem_cons.mp hx with rfl | hx2
          · exact he
          · have := List.mem_takeWhile_imp hx2
            rw [he] at this
            simpa using this

theorem seg_chain (t : List Char) : List.Chain' SepOK (seg t) :=
  seg_chain_aux t.length t le_rfl

theorem WSChunkP_isWSChunk {r : List Char} (h : WSChunkP r) :
    isWSChunk r = true := by
  unfold isWSChunk
  exact List.all_eq_true.mpr h

theorem not_isWSChunk_of_word {r : List Char} {c : Char} (hc : c ∈ r)
    (hnws : isPyWS c = false) : isWSChunk r = false := by
  unfold isWSChunk
  rw [Bool.eq_false_iff]
  intro hcon
  have := List.all_eq_true.mp hcon c hc
  rw [hnws] at this
  exact Bool.false_ne_true this

theorem tokens_eq_wordChunks_seg_aux :
    ∀ (n : Nat) (t : List Char), t.length ≤ n →
      tokens t = wordChunks (seg t) := by
  intro n
  induction n with
  | zero =>
    intro t ht
    have : t = [] := List.length_eq_zero.mp (Nat.le_zero.mp ht)
    subst this
    rfl
  | succ n ih =>
    intro t ht
    cases t with
    | nil => rfl
    | cons c t =>
      have h2 : t.length ≤ n := Nat.le_of_succ_le_succ ht
      have hlen : (t.dropWhile (fun x => isPyWS x == isPyWS c)).length ≤ n := by
        have h1 := (List.dropWhile_sublist
          (l := t) (fun x => isPyWS x == isPyWS c)).length_le
        omega
      have hsplit : c :: t =
          (c :: t.takeWhile (fun x => isPyWS x == isPyWS c)) ++
            t.dropWhile (fun x => isPyWS x == isPyWS c) := by
        simp [List.takeWhile_append_dropWhile]
      by_cases hc : isPyWS c = true
      · -- leading whitespace run
        have hws : ∀ x ∈ c :: t.takeWhile (fun x => isPyWS x == isPyWS c),
            isPyWS x = true := by
          intro x hx
          rcases List.mem_cons.mp hx with rfl | hx2
          · exact hc
          · have := List.mem_takeWhile_imp hx2
            rw [hc] at this
            simpa using this
        rw [seg_cons]
        unfold wordChunks
        rw [List.filter_cons]
        rw [show (!isWSChunk (c :: t.takeWhile
            (fun x => isPyWS x == isPyWS c))) = false by
          simp [WSChunkP_isWSChunk hws]]
        simp only [Bool.false_eq_true, if_false]
        rw [show tokens (c :: t) = tokens
            (t.dropWhile (fun x => isPyWS x == isPyWS c)) by
          conv =>
            lhs
            rw [hsplit]
          exact tokens_ws_prefix _ _ hws]
        exact ih _ hlen
      · -- leading word run
        have hcf : isPyWS c = false := by
          cases hb : isPyWS c
          · rfl
          · exact absurd hb hc
        have hword : ∀ x ∈ c :: t.takeWhile (fun x => isPyWS x == isPyWS c),
            isPyWS x = false := by
          intro x hx
          rcases List.mem_cons.mp hx with rfl | hx2
          · exact hcf
          · have := List.mem_takeWhile_imp hx2
            rw [hcf] at this
            simpa using this
        rw [seg_cons]
        unfold wordChunks
        rw [List.filter_cons]
        rw [show (!isWSChunk (c :: t.takeWhile
            (fun x => isPyWS x == isPyWS c))) = true by
          simp [not_isWSChunk_of_word (List.mem_cons_self c _) hcf]]
        rw [if_pos rfl]
        cases hdw : t.dropWhile (fun x => isPyWS x == isPyWS c) with
        | nil =>
          rw [hdw] at hsplit
          rw [List.append_nil] at hsplit
          rw [show tokens (c :: t) =
              [c :: t.takeWhile (fun x => isPyWS x == isPyWS c)] by
            conv =>
              lhs
              rw [hsplit]
            exact tokens_word _ (by simp) hword]
          simp [seg]
        | cons e dw =>
          have hew : isPyWS e = true := by
            have hec : (isPyWS e == isPyWS c) = false :=
              dropWhile_head_not _ t e dw hdw
            cases hb : isPyWS e
            · rw [hb, hcf] at hec
              simp at hec
            · rfl
          have htok : tokens (c :: t) =
              (c :: t.takeWhile (fun x => isPyWS x == isPyWS c)) ::
                tokens dw := by
            conv =>
              lhs
              rw [hsplit, hdw]
            rw [tokens_append_ws _ _ _ hew]
            rw [tokens_word _ (by simp) hword]
            rfl
          rw [htok]
          have htokdw : tokens (t.dropWhile (fun x => isPyWS x == isPyWS c)) =
              tokens dw := by
            rw [hdw]
            exact tokens_cons_ws e dw hew
          rw [← htokdw, ih _ hlen, hdw]
          rfl

theorem tokens_eq_wordChunks_seg (t : List Char) :
    tokens t = wordChunks (seg t) :=
  tokens_eq_wordChunks_seg_aux t.length t le_rfl

theorem mem_token_of_mem {t : List Char} {c : Char} (hc : c ∈ t)
    (hnws : isPyWS c = false) : ∃ w ∈ tokens t, c ∈ w := by
  rw [tokens_eq_wordChunks_seg]
  have hflat : c ∈ (seg t).flatten := by
    rw [seg_flatten]
    exact hc
  obtain ⟨r, hr, hcr⟩ := List.mem_flatten.mp hflat
  refine ⟨r, ?_, hcr⟩
  unfold wordChunks
  rw [List.mem_filter]
  exact ⟨hr, by simp [not_isWSChunk_of_word hcr hnws]⟩

theorem runLen_cons (p : Char → Bool) (c : Char) (cs : List Char) :
    runLen p (c :: cs) = if p c = true then runLen p cs + 1 else 0 := rfl

theorem testAt_of_get? {p : Char → Bool} {s : List Char} {i : Nat} {c : Char}
    (h : s.get? i = some c) : testAt p s i = p c := by
  unfold testAt
  rw [h]

theorem runLen_eq_takeWhile_length (p : Char → Bool) (l : List Char) :
    runLen p l = (l.takeWhile p).length := by
  induction l with
  | nil => rfl
  | cons c cs ih =>
    unfold runLen
    rw [List.takeWhile_cons]
    by_cases h : p c = true
    · rw [if_pos h, if_pos h]
      simp [ih]
    · rw [if_neg h, if_neg h]
      rfl

theorem take_runLen (p : Char → Bool) (l : List Char) :
    l.take (runLen p l) = l.takeWhile p := by
  induction l with
  | nil => rfl
  | cons c cs ih =>
    rw [runLen_cons, List.takeWhile_cons]
    by_cases h : p c = true
    · rw [if_pos h, if_pos h, List.take_succ_cons, ih]
    · rw [if_neg h, if_neg h]
      rfl

theorem drop_runLen (p : Char → Bool) (l : List Char) :
    l.drop (runLen p l) = l.dropWhile p := by
  induction l with
  | nil => rfl
  | cons c cs ih =>
    rw [runLen_cons, List.dropWhile_cons]
    by_cases h : p c = true
    · rw [if_pos h, if_pos h, List.drop_succ_cons, ih]
    · rw [if_neg h, if_neg h]
      rfl

theorem runLen_le_length (p : Char → Bool) (l : List Char) :
    runLen p l ≤ l.length := by
  rw [runLen_eq_takeWhile_length]
  exact (List.takeWhile_sublist p).length_le

theorem charIs_false_of_not_mem {s : List Char} {c0 : Char} (h : c0 ∉ s)
    (i : Nat) : charIs s i c0 = false := by
  unfold charIs
  cases hg : s.get? i with
  | none => rfl
  | some c =>
    have hc : c ∈ s := List.get?_mem hg
    by_cases he : c = c0
    · subst he
      exact absurd hc h
    · simp [he]

theorem hyphenRunAt_eq_zero {s : List Char} (h : ('-' : Char) ∉ s) (i : Nat) :
    hyphenRunAt s i = 0 := by
  unfold hyphenRunAt
  cases hd : s.drop i with
  | nil => rfl
  | cons c cs =>
    rw [runLen_cons]
    by_cases hc : c = '-'
    · subst hc
      have : ('-' : Char) ∈ s := List.drop_subset i s (by rw [hd]; simp)
      exact absurd this h
    · simp [hc]

theorem runLen_get_lt (p : Char → Bool) :
    ∀ (l : List Char) (j : Nat), j < runLen p l →
      ∃ c, l.get? j = some c ∧ p c = true := by
  intro l
  induction l with
  | nil =>
    intro j h
    simp [runLen] at h
  | cons c cs ih =>
    intro j h
    rw [runLen_cons] at h
    by_cases hp : p c = true
    · rw [if_pos hp] at h
      cases j with
      | zero => exact ⟨c, rfl, hp⟩
      | succ m =>
        obtain ⟨d, hd, hpd⟩ := ih m (by omega)
        exact ⟨d, by simpa using hd, hpd⟩
    · rw [if_neg hp] at h
      omega

theorem runLen_get_end (p : Char → Bool) :
    ∀ (l : List Char), runLen p l < l.length →
      ∃ c, l.get? (runLen p l) = some c ∧ p c = false := by
  intro l
  induction l with
  | nil =>
    intro h
    simp at h
  | cons c cs ih =>
    intro h
    by_cases hp : p c = true
    · have hr : runLen p (c :: cs) = runLen p cs + 1 := by
        rw [runLen_cons, if_pos hp]
      rw [hr] at h ⊢
      obtain ⟨d, hd, hpd⟩ := ih (by simpa using h)
      exact ⟨d, by simpa using hd, hpd⟩
    · have hr : runLen p (c :: cs) = 0 := by
        rw [runLen_cons, if_neg hp]
      rw [hr]
      exact ⟨c, rfl, by simpa using hp⟩

theorem findWordEnd_eq (s : List Char) (i target : Nat)
    (htarget : wordBreakAt s i target = true) :
    ∀ (fuel e0 : Nat), e0 ≤ target → target ≤ e0 + fuel →
      (∀ e, e0 ≤ e → e < target → wordBreakAt s i e = false) →
      findWordEnd s i fuel e0 = target := by
  intro fuel
  induction fuel with
  | zero =>
    intro e0 h1 h2 _
    have : e0 = target := by omega
    subst this
    rfl
  | succ fuel ih =>
    intro e0 h1 h2 hbefore
    unfold findWordEnd
    by_cases he : e0 = target
    · subst he
      rw [if_pos htarget]
    · have hlt : e0 < target := by omega
      rw [if_neg (by simp [hbefore e0 le_rfl hlt])]
      exact ih (e0 + 1) (by omega) (by omega)
        (fun e h1e h2e => hbefore e (by omega) h2e)

theorem hyphenBranch_false {s : List Char} (h : ('-' : Char) ∉ s)
    (i e : Nat) : hyphenBranch s i e = false := by
  unfold hyphenBranch
  rw [charIs_false_of_not_mem h]
  simp

theorem emdashEndBranch_false {s : List Char} (h : ('-' : Char) ∉ s)
    (i e : Nat) : emdashEndBranch s i e = false := by
  unfold emdashEndBranch
  rw [hyphenRunAt_eq_zero h]
  simp

theorem wordBreakAt_no_hyphen {s : List Char} (hh : ('-' : Char) ∉ s)
    (i e : Nat) : wordBreakAt s i e = endBranch s e := by
  unfold wordBreakAt
  rw [hyphenBranch_false hh, emdashEndBranch_false hh]
  simp

theorem splitGo_eq_seg {s : List Char} (hh : ('-' : Char) ∉ s) :
    ∀ (fuel i : Nat), s.length - i < fuel →
      splitGo s fuel i = seg (s.drop i) := by
  intro fuel
  induction fuel with
  | zero =>
    intro i h
    omega
  | succ fuel ih =>
    intro i hfe
    unfold splitGo
    by_cases hi : i < s.length
    · rw [if_pos hi]
      have hd : s.drop i = s.get ⟨i, hi⟩ :: s.drop (i + 1) :=
        List.drop_eq_get_cons hi
      have hget : s.get? i = some (s.get ⟨i, hi⟩) := List.get?_eq_get hi
      by_cases hws : isPyWS (s.get ⟨i, hi⟩) = true
      · -- a whitespace run
        have htest : testAt isPyWS s i = true := by
          rw [testAt_of_get? hget, hws]
        rw [if_pos htest]
        have hr1 : 1 ≤ runLen isPyWS (s.drop i) := by
          rw [hd, runLen_cons, if_pos hws]
          omega
        have hrec : splitGo s fuel (i + runLen isPyWS (s.drop i)) =
            seg (s.drop (i + runLen isPyWS (s.drop i))) := by
          apply ih
          have := runLen_le_length isPyWS (s.drop i)
          omega
        rw [hrec]
        have hφ : (fun x => isPyWS x == isPyWS (s.get ⟨i, hi⟩)) = isPyWS := by
          funext x
          rw [hws]
          simp
        conv =>
          rhs
          rw [hd, seg_cons, hφ]
        rw [take_runLen]
        have hdrop : s.drop (i + runLen isPyWS (s.drop i)) =
            (s.drop (i + 1)).dropWhile isPyWS := by
          rw [← List.drop_drop, drop_runLen, hd, List.dropWhile_cons,
            if_pos hws]
        rw [hdrop, hd, List.takeWhile_cons, if_pos hws]
      · -- a word run; the em-dash rule cannot fire without hyphens
        have htest : testAt isPyWS s i = false := by
          rw [testAt_of_get? hget]
          simpa using hws
        rw [if_neg (by simp [htest])]
        rw [if_neg (by simp [hyphenRunAt_eq_zero hh])]
        have hwsf : isPyWS (s.get ⟨i, hi⟩) = false := by
          simpa using hws
        have hR1 : 1 ≤ runLen (fun c => !isPyWS c) (s.drop i) := by
          rw [hd, runLen_cons, if_pos (by rw [hwsf]; rfl)]
          omega
        have hRlen : runLen (fun c => !isPyWS c) (s.drop i) ≤ s.length - i := by
          have h1 := runLen_le_length (fun c => !isPyWS c) (s.drop i)
          simpa using h1
        have htarget : wordBreakAt s i
            (i + runLen (fun c => !isPyWS c) (s.drop i)) = true := by
          rw [wordBreakAt_no_hyphen hh]
          unfold endBranch
          by_cases hend : s.length ≤ i + runLen (fun c => !isPyWS c) (s.drop i)
          · rw [decide_eq_true hend]
            simp
          · have hlt : runLen (fun c => !isPyWS c) (s.drop i) <
                (s.drop i).length := by
              rw [List.length_drop]
              omega
            obtain ⟨d, hdg, hdp⟩ := runLen_get_end _ (s.drop i) hlt
            have hsg : s.get? (i + runLen (fun c => !isPyWS c) (s.drop i)) =
                some d := by
              rw [← List.get?_drop]
              exact hdg
            have htd : testAt isPyWS s
                (i + runLen (fun c => !isPyWS c) (s.drop i)) = true := by
              rw [testAt_of_get? hsg]
              simpa using hdp
            rw [htd]
            simp
        have hbefore : ∀ e, i + 1 ≤ e →
            e < i + runLen (fun c => !isPyWS c) (s.drop i) →
            wordBreakAt s i e = false := by
          intro e h1e h2e
          rw [wordBreakAt_no_hyphen hh]
          unfold endBranch
          obtain ⟨d, hdg, hdp⟩ := runLen_get_lt (fun c => !isPyWS c)
            (s.drop i) (e - i) (by omega)
          have hsg : s.get? e = some d := by
            have h3 := List.get?_drop s i (e - i)
            rw [show i + (e - i) = e by omega] at h3
            rw [← h3]
            exact hdg
          have htd : testAt isPyWS s e = false := by
            rw [testAt_of_get? hsg]
            simpa using hdp
          have hlen : ¬ s.length ≤ e := by omega
          rw [htd]
          simp [hlen]
        have hfwe : findWordEnd s i (s.length + 1) (i + 1) =
            i + runLen (fun c => !isPyWS c) (s.drop i) :=
          findWordEnd_eq s i _ htarget (s.length + 1) (i + 1)
            (by omega) (by omega) hbefore
        rw [hfwe]
        rw [show i + runLen (fun c => !isPyWS c) (s.drop i) - i =
          runLen (fun c => !isPyWS c) (s.drop i) by omega]
        have hrec : splitGo s fuel
            (i + runLen (fun c => !isPyWS c) (s.drop i)) =
            seg (s.drop (i + runLen (fun c => !isPyWS c) (s.drop i))) := by
          apply ih
          omega
        rw [hrec]
        have hφ : (fun x => isPyWS x == isPyWS (s.get ⟨i, hi⟩)) =
            (fun c => !isPyWS c) := by
          funext x
          rw [hwsf]
          cases isPyWS x <;> simp
        conv =>
          rhs
          rw [hd, seg_cons, hφ]
        rw [take_runLen]
        have hdrop : s.drop (i + runLen (fun c => !isPyWS c) (s.drop i)) =
            (s.drop (i + 1)).dropWhile (fun c => !isPyWS c) := by
          rw [← List.drop_drop, drop_runLen, hd, List.dropWhile_cons,
            if_pos (by rw [hwsf]; rfl)]
        rw [hdrop, hd, List.takeWhile_cons, if_pos (by rw [hwsf]; rfl)]
    · rw [if_neg hi]
      rw [List.drop_eq_nil_of_le (by omega)]
      rfl

theorem pySplit_eq_seg {s : List Char} (hh : ('-' : Char) ∉ s) :
    pySplit s = seg s := by
  unfold pySplit
  rw [splitGo_eq_seg hh (s.length + 1) 0 (by omega)]
  simp

theorem sumLen_nil : sumLen [] = 0 := rfl

theorem sumLen_cons (c : List Char) (cs : List (List Char)) :
    sumLen (c :: cs) = c.length + sumLen cs := by
  simp [sumLen]

theorem sumLen_append (a b : List (List Char)) :
    sumLen (a ++ b) = sumLen a + sumLen b := by
  simp [sumLen]

theorem flatten_length (cs : List (List Char)) :
    cs.flatten.length = sumLen cs := by
  simp [sumLen, List.length_flatten]

theorem takeChunks_eq_append (width : Nat) :
    ∀ (cs : List (List Char)) (acc : Nat),
      (takeChunks width acc cs).1 ++ (takeChunks width acc cs).2 = cs := by
  intro cs
  induction cs with
  | nil => intro acc; rfl
  | cons c cs ih =>
    intro acc
    unfold takeChunks
    by_cases h : acc + c.length ≤ width
    · rw [if_pos h]
      cases hr : takeChunks width (acc + c.length) cs with
      | mk a1 r1 =>
        have h2 := ih (acc + c.length)
        rw [hr] at h2
        show c :: (a1 ++ r1) = c :: cs
        rw [h2]
    · rw [if_neg h]
      rfl

theorem takeChunks_sumLen (width : Nat) :
    ∀ (cs : List (List Char)) (acc : Nat), acc ≤ width →
      acc + sumLen (takeChunks width acc cs).1 ≤ width := by
  intro cs
  induction cs with
  | nil =>
    intro acc h
    simpa [takeChunks, sumLen_nil]
  | cons c cs ih =>
    intro acc h
    unfold takeChunks
    by_cases hf : acc + c.length ≤ width
    · rw [if_pos hf]
      cases hr : takeChunks width (acc + c.length) cs with
      | mk a1 r1 =>
        have h2 := ih (acc + c.length) hf
        rw [hr] at h2
        show acc + sumLen (c :: a1) ≤ width
        rw [sumLen_cons]
        simp only [] at h2
        omega
    · rw [if_neg hf]
      show acc + sumLen [] ≤ width
      rw [sumLen_nil]
      omega

theorem rfindHyphenGo_bound :
    ∀ (l : List Char) (j0 : Nat) (best : Option Nat) (hy : Nat),
      rfindHyphenGo l j0 best = some hy →
      best = some hy ∨ hy < j0 + l.length := by
  intro l
  induction l with
  | nil =>
    intro j0 best hy h
    exact Or.inl h
  | cons c cs ih =>
    intro j0 best hy h
    unfold rfindHyphenGo at h
    rcases ih (j0 + 1) _ hy h with h2 | h2
    · by_cases hc : c = '-'
      · rw [if_pos hc] at h2
        injection h2 with h3
        right
        simp only [List.length_cons]
        omega
      · rw [if_neg hc] at h2
        exact Or.inl h2
    · right
      simp only [List.length_cons]
      omega

theorem pyRfindHyphen_lt {chunk : List Char} {stop hy : Nat}
    (h : pyRfindHyphen chunk stop = some hy) : hy < stop := by
  unfold pyRfindHyphen at h
  rcases rfindHyphenGo_bound _ 0 none hy h with h2 | h2
  · exact Option.noConfusion h2
  · have h3 := List.length_take_le stop chunk
    omega

theorem hlwEnd_le (spaceLeft : Nat) (chunk : List Char) :
    hlwEnd spaceLeft chunk ≤ spaceLeft := by
  unfold hlwEnd
  split
  · split
    · split
      · next hy hfind _ =>
        have hlt := pyRfindHyphen_lt hfind
        omega
      · exact le_rfl
    · exact le_rfl
  · exact le_rfl

theorem hlwEnd_pos (spaceLeft : Nat) (chunk : List Char)
    (h : 1 ≤ spaceLeft) : 1 ≤ hlwEnd spaceLeft chunk := by
  unfold hlwEnd
  split
  · split
    · split
      · omega
      · exact h
    · exact h
  · exact h

theorem handleLongWord_append (width curLen : Nat) (chunk : List Char) :
    (handleLongWord width curLen chunk).1 ++
      (handleLongWord width curLen chunk).2 = chunk :=
  List.take_append_drop _ chunk

theorem handleLongWord_piece_le (width curLen : Nat) (chunk : List Char)
    (hw : 1 ≤ width) :
    (handleLongWord width curLen chunk).1.length ≤ width - curLen := by
  unfold handleLongWord
  rw [if_neg (show ¬ width < 1 by omega)]
  calc (chunk.take (hlwEnd (width - curLen) chunk)).length
      ≤ hlwEnd (width - curLen) chunk := List.length_take_le _ _
    _ ≤ width - curLen := hlwEnd_le _ _

theorem handleLongWord_ws {chunk : List Char} (width curLen : Nat)
    (h : WSChunkP chunk) :
    WSChunkP (handleLongWord width curLen chunk).1 ∧
    WSChunkP (handleLongWord width curLen chunk).2 :=
  ⟨fun x hx => h x (List.take_subset _ _ hx),
   fun x hx => h x (List.drop_subset _ _ hx)⟩

theorem handleLongWord_rest_ne (width curLen : Nat) (chunk : List Char)
    (hw : 1 ≤ width) (hlen : width < chunk.length) (hcl : curLen ≤ width) :
    (handleLongWord width curLen chunk).2 ≠ [] := by
  unfold handleLongWord
  rw [if_neg (show ¬ width < 1 by omega)]
  have he := hlwEnd_le (width - curLen) chunk
  intro hcon
  have h2 := congrArg List.length hcon
  rw [List.length_drop] at h2
  simp only [List.length_nil] at h2
  omega

theorem handleLongWord_rest_len (width curLen : Nat) (chunk : List Char) :
    (handleLongWord width curLen chunk).2.length ≤ chunk.length := by
  unfold handleLongWord
  rw [List.length_drop]
  omega

theorem handleLongWord_rest_lt (width : Nat) (chunk : List Char)
    (hw : 1 ≤ width) (hne : chunk ≠ []) :
    (handleLongWord width 0 chunk).2.length < chunk.length := by
  unfold handleLongWord
  rw [if_neg (show ¬ width < 1 by omega), List.length_drop]
  have h1 : 1 ≤ hlwEnd (width - 0) chunk := hlwEnd_pos _ _ (by omega)
  have h2 : 1 ≤ chunk.length := by
    cases chunk with
    | nil => exact absurd rfl hne
    | cons a l => simp
  omega

theorem wrapStep_eq_short {width : Nat} {chunks1 cur rest : List (List Char)}
    (hc : takeChunks width 0 chunks1 = (cur, rest))
    (h : ∀ r rs, rest = r :: rs → ¬ width < r.length) :
    wrapStep width chunks1 = (cur, rest) := by
  unfold wrapStep
  rw [hc]
  cases rest with
  | nil => rfl
  | cons r rs =>
    show (if width < r.length then
        match handleLongWord width (sumLen cur) r with
        | (piece, restchunk) => (cur ++ [piece], restchunk :: rs)
      else (cur, r :: rs)) = (cur, r :: rs)
    rw [if_neg (h r rs rfl)]

theorem wrapStep_eq_long {width : Nat} {chunks1 cur : List (List Char)}
    {r : List Char} {rs : List (List Char)}
    (hc : takeChunks width 0 chunks1 = (cur, r :: rs))
    (h : width < r.length) :
    wrapStep width chunks1 =
      (cur ++ [(handleLongWord width (sumLen cur) r).1],
       (handleLongWord width (sumLen cur) r).2 :: rs) := by
  unfold wrapStep
  rw [hc]
  show (if width < r.length then
      match handleLongWord width (sumLen cur) r with
      | (piece, restchunk) => (cur ++ [piece], restchunk :: rs)
    else (cur, r :: rs)) = _
  rw [if_pos h]

theorem dropTrailingWS_sublist (cur : List (List Char)) :
    (dropTrailingWS cur).Sublist cur := by
  unfold dropTrailingWS
  split
  · split
    · exact List.dropLast_sublist cur
    · exact List.Sublist.refl _
  · exact List.Sublist.refl _

theorem dropTrailingWS_isPrefixOf (cur : List (List Char)) :
    (dropTrailingWS cur) <+: cur := by
  unfold dropTrailingWS
  split
  · split
    · exact List.dropLast_prefix cur
    · exact List.prefix_refl _
  · exact List.prefix_refl _

theorem wordChunks_append (a b : List (List Char)) :
    wordChunks (a ++ b) = wordChunks a ++ wordChunks b :=
  List.filter_append a b

theorem wordChunks_cons_ws {c : List Char} (h : isWSChunk c = true)
    (cs : List (List Char)) : wordChunks (c :: cs) = wordChunks cs := by
  simp [wordChunks, h]

theorem wordChunks_cons_word {c : List Char} (h : isWSChunk c = false)
    (cs : List (List Char)) : wordChunks (c :: cs) = c :: wordChunks cs := by
  simp [wordChunks, h]

theorem wordChunks_dropTrailingWS (cur : List (List Char)) :
    wordChunks (dropTrailingWS cur) = wordChunks cur := by
  unfold dropTrailingWS
  split
  · next lastc h =>
    split
    · next hw =>
      have hne : cur ≠ [] := by
        intro hn
        rw [hn] at h
        exact Option.noConfusion h
      have hlast : lastc = cur.getLast hne := by
        have h2 := List.getLast?_eq_getLast cur hne
        rw [h] at h2
        exact Option.some_inj.mp h2
      conv =>
        rhs
        rw [← List.dropLast_append_getLast hne]
      rw [wordChunks_append, ← hlast,
        show wordChunks [lastc] = [] by simp [wordChunks, hw],
        List.append_nil]
    · rfl
  · rfl

theorem tokens_flatten_eq_wordChunks :
    ∀ (cs : List (List Char)),
      (∀ r ∈ cs, r ≠ [] ∧ (WSChunkP r ∨ ∀ x ∈ r, isPyWS x = false)) →
      List.Chain' SepOK cs →
      tokens cs.flatten = wordChunks cs := by
  intro cs
  induction cs with
  | nil =>
    intro _ _
    rfl
  | cons c rest ih =>
    intro hall hchain
    obtain ⟨hcne, hcw⟩ := hall c (by simp)
    rcases hcw with hws | hword
    · rw [List.flatten_cons, tokens_ws_prefix c _ hws]
      rw [ih (fun r hr => hall r (by simp [hr])) hchain.tail]
      rw [wordChunks_cons_ws (WSChunkP_isWSChunk hws)]
    · have hwc : isWSChunk c = false := by
        cases c with
        | nil => exact absurd rfl hcne
        | cons x xs => exact not_isWSChunk_of_word (by simp) (hword x (by simp))
      rw [wordChunks_cons_word hwc]
      cases rest with
      | nil =>
        simp only [List.flatten_cons, List.flatten_nil, List.append_nil]
        rw [tokens_word c hcne hword]
        rfl
      | cons d rest2 =>
        have hsep : SepOK c d := (List.chain'_cons'.mp hchain).1 d rfl
        have hdws : WSChunkP d := by
          rcases hsep with h1 | h1
          · cases c with
            | nil => exact absurd rfl hcne
            | cons x xs =>
              have ht := h1 x (by simp)
              have hf := hword x (by simp)
              rw [hf] at ht
              exact absurd ht (by simp)
          · exact h1
        obtain ⟨hdne, _⟩ := hall d (by simp)
        cases d with
        | nil => exact absurd rfl hdne
        | cons y ys =>
          have hy : isPyWS y = true := hdws y (by simp)
          have hys : ∀ x ∈ ys, isPyWS x = true :=
            fun x hx => hdws x (by simp [hx])
          have hIH := ih (fun r hr => hall r (by simp [hr])) hchain.tail
          rw [List.flatten_cons] at hIH
          rw [show ((y :: ys) ++ rest2.flatten : List Char) =
            y :: (ys ++ rest2.flatten) from rfl] at hIH
          rw [tokens_cons_ws _ _ hy, tokens_ws_prefix ys _ hys] at hIH
          rw [List.flatten_cons, List.flatten_cons]
          rw [show (c ++ ((y :: ys) ++ rest2.flatten) : List Char) =
            c ++ y :: (ys ++ rest2.flatten) from rfl]
          rw [tokens_append_ws c y _ hy, tokens_word c hcne hword,
            tokens_ws_prefix ys _ hys, hIH]
          rfl

theorem wrapChunksGo_cons_eq (width fuel : Nat) (hasLines : Bool)
    (c : List Char) (cs : List (List Char)) :
    wrapChunksGo width (fuel + 1) hasLines (c :: cs) =
      match if hasLines && isWSChunk c then cs else c :: cs with
      | [] => []
      | c1 :: cs1 =>
        match dropTrailingWS (wrapStep width (c1 :: cs1)).1,
            (wrapStep width (c1 :: cs1)).2 with
        | [], rest2 => wrapChunksGo width fuel hasLines rest2
        | l :: ls, rest2 =>
          ((l :: ls).flatten) :: wrapChunksGo width fuel true rest2 := rfl

theorem wrapChunksGo_cons_eq2 {width fuel : Nat} {hasLines : Bool}
    {c : List Char} {cs0 : List (List Char)} {c1 : List Char}
    {cs1 : List (List Char)}
    (hch : (if hasLines && isWSChunk c then cs0 else c :: cs0) = c1 :: cs1) :
    wrapChunksGo width (fuel + 1) hasLines (c :: cs0) =
      match dropTrailingWS (wrapStep width (c1 :: cs1)).1,
          (wrapStep width (c1 :: cs1)).2 with
      | [], rest2 => wrapChunksGo width fuel hasLines rest2
      | l :: ls, rest2 =>
        ((l :: ls).flatten) :: wrapChunksGo width fuel true rest2 := by
  rw [wrapChunksGo_cons_eq, hch]

theorem sumLen_sublist_le {a b : List (List Char)} (h : a.Sublist b) :
    sumLen a ≤ sumLen b := by
  induction h with
  | slnil => exact le_rfl
  | cons x h2 ih =>
    rw [sumLen_cons]
    omega
  | cons₂ x h2 ih =>
    rw [sumLen_cons, sumLen_cons]
    omega

theorem wrapStep_cur_sumLen (width : Nat) (hw : 1 ≤ width)
    (chunks1 : List (List Char)) :
    sumLen (wrapStep width chunks1).1 ≤ width := by
  cases hc : takeChunks width 0 chunks1 with
  | mk cur rest =>
    have hcur : sumLen cur ≤ width := by
      have h2 := takeChunks_sumLen width chunks1 0 (by omega)
      rw [hc] at h2
      simpa using h2
    cases rest with
    | nil =>
      rw [wrapStep_eq_short hc (fun r rs h => List.noConfusion h)]
      exact hcur
    | cons r rs =>
      by_cases hlong : width < r.length
      · rw [wrapStep_eq_long hc hlong]
        show sumLen (cur ++ [(handleLongWord width (sumLen cur) r).1]) ≤ width
        rw [sumLen_append, sumLen_cons, sumLen_nil]
        have hp := handleLongWord_piece_le width (sumLen cur) r hw
        omega
      · rw [wrapStep_eq_short hc
          (fun r2 rs2 he => by
            injection he with h1 h2
            subst h1
            exact hlong)]
        exact hcur

theorem wrapChunksGo_line_le (width : Nat) (hw : 1 ≤ width) :
    ∀ (fuel : Nat) (hasLines : Bool) (cs : List (List Char)),
      ∀ line ∈ wrapChunksGo width fuel hasLines cs, line.length ≤ width := by
  intro fuel
  induction fuel with
  | zero =>
    intro hasLines cs line h
    simp [wrapChunksGo] at h
  | succ fuel ih =>
    intro hasLines cs line hline
    cases cs with
    | nil => simp [wrapChunksGo] at hline
    | cons c cs0 =>
      rw [wrapChunksGo_cons_eq] at hline
      split at hline
      · simp at hline
      · next c1 cs1 hch =>
        split at hline
        · exact ih _ _ line hline
        · next l ls hdt =>
          rcases List.mem_cons.mp hline with rfl | h2
          · rw [flatten_length]
            have hsub : sumLen (l :: ls) ≤
                sumLen (wrapStep width (c1 :: cs1)).1 := by
              rw [← hdt]
              exact sumLen_sublist_le (dropTrailingWS_sublist _)
            have hmain := wrapStep_cur_sumLen width hw (c1 :: cs1)
            omega
          · exact ih _ _ line h2

theorem takeChunks_nil_head {width acc : Nat} {c : List Char}
    {cs rest : List (List Char)}
    (h : takeChunks width acc (c :: cs) = ([], rest)) :
    ¬ (acc + c.length ≤ width) := by
  intro hfit
  unfold takeChunks at h
  rw [if_pos hfit] at h
  cases h2 : takeChunks width (acc + c.length) cs with
  | mk a b =>
    rw [h2] at h
    have h5 : ((c :: a, b) : List (List Char) × List (List Char)) =
        ([], rest) := h
    injection h5 with h6 h7
    exact List.noConfusion h6

theorem ChunkInv_weaken {width : Nat} {r : List Char}
    (h : ChunkInv width r) :
    r ≠ [] ∧ (WSChunkP r ∨ ∀ x ∈ r, isPyWS x = false) := by
  obtain ⟨h1, h2⟩ := h
  exact ⟨h1, h2.imp id (fun h3 => h3.1)⟩

theorem dropTrailingWS_line_tokens {width : Nat}
    {cur : List (List Char)}
    (hmem : ∀ r ∈ cur, ChunkInv width r)
    (hchain : List.Chain' SepOK cur) :
    tokens (dropTrailingWS cur).flatten =
      wordChunks cur := by
  rw [← wordChunks_dropTrailingWS cur]
  apply tokens_flatten_eq_wordChunks
  · intro r hr
    exact ChunkInv_weaken
      (hmem r ((dropTrailingWS_sublist cur).subset hr))
  · exact hchain.prefix (dropTrailingWS_isPrefixOf cur)

theorem wrapStep_main (width : Nat) (hw : 1 ≤ width)
    (c1 : List Char) (cs1 : List (List Char))
    (hInv : ListInv width (c1 :: cs1)) :
    tokens (dropTrailingWS (wrapStep width (c1 :: cs1)).1).flatten ++
        wordChunks (wrapStep width (c1 :: cs1)).2 =
      wordChunks (c1 :: cs1) ∧
    ListInv width (wrapStep width (c1 :: cs1)).2 ∧
    sumLen (wrapStep width (c1 :: cs1)).2 +
        (wrapStep width (c1 :: cs1)).2.length <
      sumLen (c1 :: cs1) + (c1 :: cs1).length := by
  obtain ⟨hmem, hchain⟩ := hInv
  cases hc : takeChunks width 0 (c1 :: cs1) with
  | mk cur rest =>
    have happ : cur ++ rest = c1 :: cs1 := by
      have h2 := takeChunks_eq_append width (c1 :: cs1) 0
      rw [hc] at h2
      exact h2
    have hcursum : sumLen cur ≤ width := by
      have h2 := takeChunks_sumLen width (c1 :: cs1) 0 (by omega)
      rw [hc] at h2
      simpa using h2
    have hcurmem : ∀ r ∈ cur, ChunkInv width r :=
      fun r hr => hmem r (happ ▸ List.mem_append_left rest hr)
    have hrestmem : ∀ r ∈ rest, ChunkInv width r :=
      fun r hr => hmem r (happ ▸ List.mem_append_right cur hr)
    have hchain2 : List.Chain' SepOK (cur ++ rest) := by
      rw [happ]
      exact hchain
    have hchaincur : List.Chain' SepOK cur :=
      (List.chain'_append.mp hchain2).1
    have hchainrest : List.Chain' SepOK rest :=
      (List.chain'_append.mp hchain2).2.1
    have hwcapp : wordChunks cur ++ wordChunks rest = wordChunks (c1 :: cs1) := by
      rw [← wordChunks_append, happ]
    have hline := dropTrailingWS_line_tokens hcurmem hchaincur
    have hline2 : tokens cur.flatten = wordChunks cur := by
      apply tokens_flatten_eq_wordChunks
      · intro q hq
        exact ChunkInv_weaken (hcurmem q hq)
      · exact hchaincur
    cases rest with
    | nil =>
      rw [wrapStep_eq_short hc (fun r rs h => List.noConfusion h)]
      refine ⟨?_, ⟨by intro r hr; simp at hr, List.chain'_nil⟩, ?_⟩
      · rw [hline]
        simpa using hwcapp
      · show sumLen [] + ([] : List (List Char)).length <
          sumLen (c1 :: cs1) + (c1 :: cs1).length
        rw [sumLen_nil, sumLen_cons]
        simp
    | cons r rs =>
      by_cases hlong : width < r.length
      · -- the next chunk is longer than the width: it must be whitespace
        have hrInv := hrestmem r (by simp)
        have hrws : WSChunkP r := by
          rcases hrInv.2 with h1 | h1
          · exact h1
          · exact absurd h1.2 (by omega)
        have hpiecews : WSChunkP (handleLongWord width (sumLen cur) r).1 :=
          (handleLongWord_ws width (sumLen cur) hrws).1
        have hhl2ws : WSChunkP (handleLongWord width (sumLen cur) r).2 :=
          (handleLongWord_ws width (sumLen cur) hrws).2
        have hhl2ne : (handleLongWord width (sumLen cur) r).2 ≠ [] :=
          handleLongWord_rest_ne width (sumLen cur) r hw hlong hcursum
        rw [wrapStep_eq_long hc hlong]
        have hdt : dropTrailingWS
            (cur ++ [(handleLongWord width (sumLen cur) r).1]) = cur := by
          unfold dropTrailingWS
          rw [List.getLast?_concat]
          show (if isWSChunk (handleLongWord width (sumLen cur) r).1 = true
            then (cur ++ [(handleLongWord width (sumLen cur) r).1]).dropLast
            else cur ++ [(handleLongWord width (sumLen cur) r).1]) = cur
          rw [if_pos (WSChunkP_isWSChunk hpiecews), List.dropLast_concat]
        refine ⟨?_, ?_, ?_⟩
        · show tokens (dropTrailingWS
              (cur ++ [(handleLongWord width (sumLen cur) r).1])).flatten ++
            wordChunks ((handleLongWord width (sumLen cur) r).2 :: rs) =
            wordChunks (c1 :: cs1)
          rw [hdt, hline2,
            wordChunks_cons_ws (WSChunkP_isWSChunk hhl2ws)]
          rw [← hwcapp, wordChunks_cons_ws (WSChunkP_isWSChunk hrws)]
        · constructor
          · intro q hq
            rcases List.mem_cons.mp hq with rfl | hq2
            · exact ⟨hhl2ne, Or.inl hhl2ws⟩
            · exact hrestmem q (by simp [hq2])
          · rw [List.chain'_cons']
            exact ⟨fun y _ => Or.inl hhl2ws, hchainrest.tail⟩
        · show sumLen ((handleLongWord width (sumLen cur) r).2 :: rs) +
            ((handleLongWord width (sumLen cur) r).2 :: rs).length <
            sumLen (c1 :: cs1) + (c1 :: cs1).length
          have hmucs : sumLen (c1 :: cs1) =
              sumLen cur + (r.length + sumLen rs) := by
            rw [← happ, sumLen_append, sumLen_cons]
          have hlencs : (c1 :: cs1).length = cur.length + (rs.length + 1) := by
            rw [← happ]
            simp
          rw [sumLen_cons, hmucs, hlencs]
          simp only [List.length_cons]
          cases hcur0 : cur with
          | nil =>
            have hlt := handleLongWord_rest_lt width r hw hrInv.1
            rw [hcur0] at *
            rw [show sumLen ([] : List (List Char)) = 0 from rfl] at *
            omega
          | cons q qs =>
            have hle := handleLongWord_rest_len width (sumLen cur) r
            rw [hcur0] at *
            simp only [List.length_cons]
            omega
      · rw [wrapStep_eq_short hc
          (fun r2 rs2 he => by
            injection he with h1 h2
            subst h1
            exact hlong)]
        refine ⟨?_, ⟨hrestmem, hchainrest⟩, ?_⟩
        · rw [hline, hwcapp]
        · cases hcur0 : cur with
          | nil =>
            exfalso
            rw [hcur0] at happ
            simp at happ
            have hrc : r = c1 := by
              rw [← happ.1]
            have := takeChunks_nil_head (hcur0 ▸ hc)
            rw [hrc] at hlong
            omega
          | cons q qs =>
            have hmucs : sumLen (c1 :: cs1) =
                sumLen cur + sumLen (r :: rs) := by
              rw [← happ, sumLen_append]
            have hlencs : (c1 :: cs1).length = cur.length + (r :: rs).length := by
              rw [← happ]
              simp
            rw [hmucs, hlencs, hcur0, sumLen_cons]
            simp only [List.length_cons]
            omega

theorem wrapChunksGo_tokens (width : Nat) (hw : 1 ≤ width) :
    ∀ (fuel : Nat) (cs : List (List Char)) (hasLines : Bool),
      sumLen cs + cs.length < fuel → ListInv width cs →
      ((wrapChunksGo width fuel hasLines cs).map tokens).flatten =
        wordChunks cs := by
  intro fuel
  induction fuel with
  | zero =>
    intro cs _ h _
    omega
  | succ fuel ih =>
    intro cs hasLines hfe hInv
    cases cs with
    | nil => rfl
    | cons c cs0 =>
      cases hch : (if hasLines && isWSChunk c then cs0 else c :: cs0) with
      | nil =>
        rw [wrapChunksGo_cons_eq, hch]
        by_cases hdrop : (hasLines && isWSChunk c) = true
        · rw [if_pos hdrop] at hch
          have hcws : isWSChunk c = true := by
            simp only [Bool.and_eq_true] at hdrop
            exact hdrop.2
          subst hch
          rw [wordChunks_cons_ws hcws]
          rfl
        · rw [if_neg hdrop] at hch
          exact List.noConfusion hch
      | cons c1 cs1 =>
        rw [wrapChunksGo_cons_eq2 hch]
        have hkey : ListInv width (c1 :: cs1) ∧
            wordChunks (c :: cs0) = wordChunks (c1 :: cs1) ∧
            sumLen (c1 :: cs1) + (c1 :: cs1).length ≤
              sumLen (c :: cs0) + (c :: cs0).length := by
          by_cases hdrop : (hasLines && isWSChunk c) = true
          · rw [if_pos hdrop] at hch
            have hcws : isWSChunk c = true := by
              simp only [Bool.and_eq_true] at hdrop
              exact hdrop.2
            subst hch
            refine ⟨⟨fun r hr => hInv.1 r (by simp [hr]), hInv.2.tail⟩,
              wordChunks_cons_ws hcws _, ?_⟩
            have h1 : sumLen (c :: c1 :: cs1) =
                c.length + sumLen (c1 :: cs1) := sumLen_cons _ _
            simp only [List.length_cons]
            omega
          · rw [if_neg hdrop] at hch
            injection hch with h1 h2
            subst h1
            subst h2
            exact ⟨hInv, rfl, le_rfl⟩
        obtain ⟨hInv1, hwc, hle⟩ := hkey
        obtain ⟨htok, hInv2, hmu⟩ := wrapStep_main width hw c1 cs1 hInv1
        have hfe2 : sumLen (wrapStep width (c1 :: cs1)).2 +
            (wrapStep width (c1 :: cs1)).2.length < fuel := by
          omega
        cases hdt : dropTrailingWS (wrapStep width (c1 :: cs1)).1 with
        | nil =>
          show ((wrapChunksGo width fuel hasLines
              (wrapStep width (c1 :: cs1)).2).map tokens).flatten =
            wordChunks (c :: cs0)
          rw [ih _ _ hfe2 hInv2, hwc]
          rw [hdt] at htok
          simpa using htok
        | cons l ls =>
          show tokens ((l :: ls).flatten) ++
              ((wrapChunksGo width fuel true
                (wrapStep width (c1 :: cs1)).2).map tokens).flatten =
            wordChunks (c :: cs0)
          rw [ih _ _ hfe2 hInv2, hwc]
          rw [hdt] at htok
          exact htok

theorem filter_eq_specSelect (L R : List VoiceEntry) :
    R.filter (fun v => !(localIds L).contains v.id) = specSelect L R := by
  induction R with
  | nil => rfl
  | cons r rs ih =>
    by_cases h : r.id ∈ L.map VoiceEntry.id
    · simp only [List.filter_cons, specSelect, localIds]
      rw [if_pos h]
      simpa [localIds, h] using ih
    · simp only [List.filter_cons, specSelect, localIds]
      rw [if_neg h]
      simpa [localIds, h] using ih

theorem mapM_extract_error {l : List RawEntry}
    (h : ∃ v ∈ l, v.id? = none ∨ v.name? = none) :
    l.mapM extractEntry = .error () := by
  induction l with
  | nil => simp at h
  | cons a t ih =>
    obtain ⟨v, hv, hbad⟩ := h
    rcases List.mem_cons.mp hv with rfl | hvt
    · have hext : extractEntry v = .error () := by
        obtain ⟨i, n⟩ := v
        rcases hbad with h1 | h1 <;> simp_all [extractEntry]
      rw [List.mapM_cons, hext]
      rfl
    · rw [List.mapM_cons]
      cases hext : extractEntry a with
      | error e => rfl
      | ok w =>
        have := ih ⟨v, hvt, hbad⟩
        simp only [this]
        rfl

theorem no_hyphen_munge (s : List Char)
    (h : ∀ w ∈ tokens s, ('-' : Char) ∉ w) : ('-' : Char) ∉ munge s := by
  intro hmem
  obtain ⟨w, hw, hcw⟩ := mem_token_of_mem hmem (by decide)
  rw [tokens_munge] at hw
  exact h w hw hcw

theorem textwrap_initial_inv (width : Nat) (s : List Char)
    (hh : ('-' : Char) ∉ munge s)
    (hlen : ∀ w ∈ tokens s, w.length ≤ width) :
    ListInv width (pySplit (munge s)) := by
  rw [pySplit_eq_seg hh]
  constructor
  · intro r hr
    obtain ⟨hne, b, huni⟩ := seg_uniform (munge s) r hr
    refine ⟨hne, ?_⟩
    cases hb : b
    · right
      constructor
      · intro x hx
        rw [huni x hx, hb]
      · have hrw : r ∈ wordChunks (seg (munge s)) := by
          unfold wordChunks
          rw [List.mem_filter]
          refine ⟨hr, ?_⟩
          cases r with
          | nil => exact absurd rfl hne
          | cons x xs =>
            have hx : isPyWS x = false := by
              rw [huni x (by simp), hb]
            simp [not_isWSChunk_of_word (List.mem_cons_self x xs) hx]
        rw [← tokens_eq_wordChunks_seg, tokens_munge] at hrw
        exact hlen r hrw
    · left
      intro x hx
      rw [huni x hx, hb]
  · exact seg_chain (munge s)

/-- C2 amended: every chunk produced by `textwrap.wrap(text, width=250)` is
at most 250 characters long; and when every whitespace-delimited word of the
text is at most 250 characters and contains no hyphen, concatenating the
chunks with single spaces reconstructs the original text modulo whitespace
normalization (same words in the same order).  (`textwrap` also breaks
words at hyphens inside compound words, so hyphenated words may be split
across chunks; see the counterexample.) -/
theorem textwrap_chunks_spec (s : List Char) :
    (∀ c ∈ textwrapWrap 250 s, c.length ≤ 250) ∧
    ((∀ w ∈ tokens s, w.length ≤ 250 ∧ ('-' : Char) ∉ w) →
      tokens (joinWithSpace (textwrapWrap 250 s)) = tokens s) := by
  constructor
  · intro c hc
    exact wrapChunksGo_line_le 250 (by omega) _ _ _ c hc
  · intro h
    have hh : ('-' : Char) ∉ munge s :=
      no_hyphen_munge s (fun w hw => (h w hw).2)
    have hlen : ∀ w ∈ tokens s, w.length ≤ 250 := fun w hw => (h w hw).1
    have hInv := textwrap_initial_inv 250 s hh hlen
    rw [tokens_joinWithSpace]
    show ((wrapChunksGo 250
        (sumLen (pySplit (munge s)) + (pySplit (munge s)).length + 1) false
        (pySplit (munge s))).map tokens).flatten = tokens s
    rw [wrapChunksGo_tokens 250 (by omega) _ _ false (by omega) hInv]
    rw [pySplit_eq_seg hh, ← tokens_eq_wordChunks_seg, tokens_munge]

/-- C2 amended witness: a two-word text wraps to one 11-character chunk and
its tokens are preserved. -/
theorem textwrap_chunks_spec_witness :
    (∀ c ∈ textwrapWrap 250 ("hello there".data), c.length ≤ 250) ∧
    tokens (joinWithSpace (textwrapWrap 250 ("hello there".data))) =
      tokens ("hello there".data) :=
  ⟨(textwrap_chunks_spec ("hello there".data)).1,
   (textwrap_chunks_spec ("hello there".data)).2 (by decide)⟩

set_option maxRecDepth 4000

/-- C2 counterexample: on 246 copies of `a`, a space, and the 5-character
word `xy-zw` — every word far below the 250 limit — `textwrap.wrap` at
width 250 ends the first chunk with `xy-` and starts the second with `zw`:
a word is split mid-token although no word exceeds 250 characters, and
joining the chunks with single spaces does not reconstruct the text modulo
whitespace normalization. -/
theorem textwrap_splits_short_hyphenated_word :
    ¬ ((∀ w ∈ tokens hyphenCexText, w.length ≤ 250) →
        tokens (joinWithSpace (textwrapWrap 250 hyphenCexText)) =
          tokens hyphenCexText) := by
  decide

/-! ## Claims about the catalog resolver -/

/-- C1: for every local catalog L and remote catalog R, when the remote
fetch succeeds with a non-empty list R, the catalog resolver returns all of
L in its original order, followed by exactly those members of R whose id is
not in L's id set, in R's original relative order (and the program's
resolver is the instance at the built-in local list). -/
theorem catalog_merge_refines_spec (L : List VoiceEntry) (o : FetchOutcome)
    (R : List VoiceEntry) (hfetch : fetch_community_voices o = R)
    (hne : R ≠ []) :
    get_voice_catalog_with L o = L ++ specSelect L R ∧
    get_voice_catalog o = get_voice_catalog_with LOCAL_VOICE_OPTIONS o := by
  refine ⟨?_, rfl⟩
  unfold get_voice_catalog_with mergeVoices
  rw [hfetch, ← filter_eq_specSelect L R]
  cases R with
  | nil => exact absurd rfl hne
  | cons r rs => rfl

/-- C1 witness: a successful fetch of one fresh remote entry appends it
after the local list. -/
theorem catalog_merge_refines_spec_witness :
    get_voice_catalog_with LOCAL_VOICE_OPTIONS
        (.resp 200 (.entries [⟨some "x1", some "N1"⟩])) =
      LOCAL_VOICE_OPTIONS ++
        specSelect LOCAL_VOICE_OPTIONS [⟨"x1", "N1"⟩] ∧
    get_voice_catalog (.resp 200 (.entries [⟨some "x1", some "N1"⟩])) =
      get_voice_catalog_with LOCAL_VOICE_OPTIONS
        (.resp 200 (.entries [⟨some "x1", some "N1"⟩])) :=
  catalog_merge_refines_spec LOCAL_VOICE_OPTIONS
    (.resp 200 (.entries [⟨some "x1", some "N1"⟩])) [⟨"x1", "N1"⟩]
    (by decide) (by decide)

/-- C6 counterexample: with remote payload
`[{"id": "zz1", "name": "ZName1"}, {"id": "zz2"}]` the second entry lacks
`name`, and the well-formed first entry is NOT merged: the resolver returns
the local list alone, contradicting the claim that only the malformed entry
is skipped. -/
theorem malformed_entry_not_skipped_counterexample :
    get_voice_catalog (.resp 200 (.entries
        [⟨some "zz1", some "ZName1"⟩, ⟨some "zz2", none⟩])) =
      LOCAL_VOICE_OPTIONS ∧
    (⟨"zz1", "ZName1"⟩ : VoiceEntry) ∉
      get_voice_catalog (.resp 200 (.entries
        [⟨some "zz1", some "ZName1"⟩, ⟨some "zz2", none⟩])) := by
  decide

/-- C6 amended: if the remote payload parses as a list but some entry lacks
an id or name field, the comprehension raises `KeyError`, the whole remote
list is discarded, and the resolver returns the local list alone. -/
theorem malformed_entry_discards_remote (localL : List VoiceEntry)
    (s : Nat) (l : List RawEntry)
    (h : ∃ v ∈ l, v.id? = none ∨ v.name? = none) :
    get_voice_catalog_with localL (.resp s (.entries l)) = localL := by
  have hf : fetch_community_voices (.resp s (.entries l)) = [] := by
    by_cases hs : s = 200
    · subst hs
      simp only [fetch_community_voices, fetchTryBody, mapM_extract_error h,
        eq_self_iff_true, if_true]
    · simp only [fetch_community_voices, fetchTryBody, if_neg hs]
  unfold get_voice_catalog_with
  rw [hf]
  rfl

/-- C6 amended witness: one entry missing its id discards the remote list. -/
theorem malformed_entry_discards_remote_witness :
    get_voice_catalog_with LOCAL_VOICE_OPTIONS
        (.resp 200 (.entries [⟨none, some "n"⟩])) = LOCAL_VOICE_OPTIONS :=
  malformed_entry_discards_remote LOCAL_VOICE_OPTIONS 200 [⟨none, some "n"⟩]
    ⟨⟨none, some "n"⟩, by simp, Or.inl rfl⟩

/-- C7: every failure mode of the remote fetch (network error, timeout,
non-200 status, malformed or unparseable payload) makes the fetch return
`[]` — the exception is swallowed inside `fetch_community_voices`, which is
total — and the catalog resolver returns exactly the local list. -/
theorem fetch_failure_returns_local (localL : List VoiceEntry)
    (o : FetchOutcome) (h : isFetchFailure o = true) :
    fetch_community_voices o = [] ∧
    get_voice_catalog_with localL o = localL := by
  cases o with
  | netError e =>
    exact ⟨rfl, rfl⟩
  | resp s b =>
    cases b <;> by_cases hs : s = 200 <;>
      simp_all [isFetchFailure, get_voice_catalog_with, fetch_community_voices,
        fetchTryBody]

/-- C7 witness: a timeout falls back to the built-in local list. -/
theorem fetch_failure_returns_local_witness :
    fetch_community_voices (.netError .timeout) = [] ∧
    get_voice_catalog_with LOCAL_VOICE_OPTIONS (.netError .timeout) =
      LOCAL_VOICE_OPTIONS :=
  fetch_failure_returns_local LOCAL_VOICE_OPTIONS (.netError .timeout)
    (by decide)

/-- C8 counterexample: a remote list with two entries sharing the fresh id
"zz" puts that id twice into the catalog, so ids are not unique within the
resolved catalog. -/
theorem duplicate_remote_ids_counterexample :
    ¬ ((get_voice_catalog (.resp 200 (.entries
        [⟨some "zz", some "A"⟩, ⟨some "zz", some "B"⟩]))).map
          VoiceEntry.id).Nodup := by
  decide

/-- C8 amended: the resolved catalog has pairwise-distinct ids whenever the
remote list itself has pairwise-distinct ids (local ids are built-in and
distinct, and remote entries duplicating a local id are filtered out); a
remote list that repeats an id repeats it in the catalog. -/
theorem catalog_ids_nodup_of_remote_nodup (o : FetchOutcome)
    (h : ((fetch_community_voices o).map VoiceEntry.id).Nodup) :
    ((get_voice_catalog o).map VoiceEntry.id).Nodup := by
  unfold get_voice_catalog get_voice_catalog_with
  by_cases he : (fetch_community_voices o).isEmpty
  · simp only [he, if_pos]
    decide
  · simp only [he, if_neg, Bool.false_eq_true, not_false_iff]
    unfold mergeVoices
    rw [List.map_append, List.nodup_append]
    refine ⟨by decide, ?_, ?_⟩
    · exact h.sublist (List.Sublist.map VoiceEntry.id (List.filter_sublist _))
    · intro x hx hx2
      obtain ⟨v, hv, rfl⟩ := List.mem_map.mp hx2
      have hp := (List.mem_filter.mp hv).2
      have hnot : v.id ∉ localIds LOCAL_VOICE_OPTIONS := by
        simpa using hp
      exact hnot (by simpa [localIds] using hx)

/-- C8 amended witness: with a failing fetch the remote list is empty (its
ids are trivially distinct) and the catalog ids are distinct. -/
theorem catalog_ids_nodup_of_remote_nodup_witness :
    ((get_voice_catalog (.netError .connectionError)).map
      VoiceEntry.id).Nodup :=
  catalog_ids_nodup_of_remote_nodup (.netError .connectionError) (by decide)

/-- C9: for every outcome of the remote fetch the resolver (a total
function: every exception of the fetch is swallowed) returns a list whose
first eight entries are exactly the built-in local voice entries in their
original order. -/
theorem catalog_take8_is_local (o : FetchOutcome) :
    (get_voice_catalog o).take 8 = LOCAL_VOICE_OPTIONS := by
  unfold get_voice_catalog get_voice_catalog_with
  by_cases he : (fetch_community_voices o).isEmpty
  · simp only [he, if_pos]
    decide
  · simp only [he, if_neg, Bool.false_eq_true, not_false_iff]
    unfold mergeVoices
    have h8 : (8 : Nat) = LOCAL_VOICE_OPTIONS.length := by decide
    rw [h8, List.take_left]

/-! ## Claims about the generation and preview workflows (except splitting) -/

theorem dropWhile_eq_nil_of_all {p : Char → Bool} {l : List Char}
    (h : ∀ c ∈ l, p c = true) : l.dropWhile p = [] := by
  induction l with
  | nil => rfl
  | cons c cs ih =>
    rw [List.dropWhile_cons, if_pos (h c (List.mem_cons_self c cs))]
    exact ih (fun x hx => h x (List.mem_cons_of_mem c hx))

theorem pyStrip_eq_nil {l : List Char} (h : ∀ c ∈ l, isPyWS c = true) :
    pyStrip l = [] := by
  unfold pyStrip
  rw [dropWhile_eq_nil_of_all h]
  rfl

/-- C4: a text box holding only whitespace is rejected immediately: the
handler returns after `messagebox.showwarning`, before voice resolution,
and performs zero synthesis calls. -/
theorem empty_text_warns_without_synthesis (voice_catalog : List VoiceEntry)
    (selected_name : String)
    (synth : List Char → String → Except String Audio)
    (saveDialog : Option String) (textBox : List Char)
    (h : ∀ c ∈ textBox, isPyWS c = true) :
    generate_voice voice_catalog selected_name synth saveDialog textBox =
      some .warned ∧
    generateCalls (generate_voice voice_catalog selected_name synth saveDialog
      textBox) = [] := by
  have hs : pyStrip textBox = [] := pyStrip_eq_nil h
  simp [generate_voice, hs, generateCalls]

/-- C4 witness: a text box containing a space and a newline only warns. -/
theorem empty_text_warns_without_synthesis_witness :
    generate_voice LOCAL_VOICE_OPTIONS "Deep Male (English)"
        (fun _ _ => .error "unused") none [' ', '\n'] = some .warned ∧
    generateCalls (generate_voice LOCAL_VOICE_OPTIONS "Deep Male (English)"
        (fun _ _ => .error "unused") none [' ', '\n']) = [] :=
  empty_text_warns_without_synthesis LOCAL_VOICE_OPTIONS "Deep Male (English)"
    (fun _ _ => .error "unused") none [' ', '\n'] (by decide)

theorem find?_first_decomp {α : Type} {p : α → Bool} :
    ∀ {l : List α} {a : α}, l.find? p = some a →
      p a = true ∧ ∃ pre post, l = pre ++ a :: post ∧ ∀ x ∈ pre, p x = false := by
  intro l
  induction l with
  | nil => intro a h; exact Option.noConfusion h
  | cons b t ih =>
    intro a h
    by_cases hb : p b = true
    · rw [List.find?_cons_of_pos _ hb, Option.some_inj] at h
      subst h
      exact ⟨hb, [], t, rfl, by simp⟩
    · rw [List.find?_cons_of_neg _ (by simpa using hb)] at h
      obtain ⟨hpa, pre, post, hl, hpre⟩ := ih h
      refine ⟨hpa, b :: pre, post, by rw [hl]; rfl, ?_⟩
      intro x hx
      rcases List.mem_cons.mp hx with rfl | hxp
      · simpa using hb
      · exact hpre x hxp

/-- C5: for a non-empty catalog, voice resolution never fails: the first
entry carrying the requested name is used, and with no such entry the
catalog head is used — and both `generate_voice` (on non-empty text) and
`preview_voice` run their workers with exactly that entry's id. -/
theorem voice_resolution_never_fails (catalog : List VoiceEntry)
    (hne : catalog ≠ []) (selected : String) :
    ∃ ve : VoiceEntry,
      resolveVoiceEntry catalog selected = some ve ∧
      ((∃ v ∈ catalog, v.name = selected) →
        ∃ pre post, catalog = pre ++ ve :: post ∧ ve.name = selected ∧
          ∀ v ∈ pre, v.name ≠ selected) ∧
      ((∀ v ∈ catalog, v.name ≠ selected) → ve = catalog.head hne) ∧
      (∀ synth saveDialog textBox, pyStrip textBox ≠ [] →
        generate_voice catalog selected synth saveDialog textBox =
          some (.started ve.id
            (worker synth ve.id saveDialog (pyStrip textBox)))) ∧
      (∀ synth fs textBox,
        preview_voice catalog selected synth fs textBox =
          some (ve.id, worker_preview synth ve.id fs)) := by
  cases catalog with
  | nil => exact absurd rfl hne
  | cons c rest =>
    have hres : resolveVoiceEntry (c :: rest) selected =
        some (((c :: rest).find? (fun v => v.name == selected)).getD c) := rfl
    refine ⟨((c :: rest).find? (fun v => v.name == selected)).getD c,
      hres, ?_, ?_, ?_, ?_⟩
    · rintro ⟨v, hv, hname⟩
      cases hf : (c :: rest).find? (fun v => v.name == selected) with
      | none =>
        have := List.find?_eq_none.mp hf v hv
        simp [hname] at this
      | some w =>
        obtain ⟨hpw, pre, post, hl, hpre⟩ := find?_first_decomp hf
        refine ⟨pre, post, by simpa [hf] using hl, by simpa using hpw, ?_⟩
        intro x hx
        have hx2 := hpre x hx
        intro hcon
        rw [hcon] at hx2
        simp at hx2
    · intro hall
      cases hf : (c :: rest).find? (fun v => v.name == selected) with
      | none => rfl
      | some w =>
        have hw := List.mem_of_find?_eq_some hf
        have hpw := (find?_first_decomp hf).1
        exact absurd (by simpa using hpw) (hall w hw)
    · intro synth saveDialog textBox htb
      have hie : (pyStrip textBox).isEmpty = false := by
        cases h2 : pyStrip textBox with
        | nil => exact absurd h2 htb
        | cons a l => rfl
      simp [generate_voice, hie, resolveVoiceEntry]
    · intro synth fs textBox
      rfl

/-- C5 witness: a name absent from the built-in catalog resolves to the
catalog head and both workflows use its id. -/
theorem voice_resolution_never_fails_witness :
    ∃ ve : VoiceEntry,
      resolveVoiceEntry LOCAL_VOICE_OPTIONS "Nope" = some ve ∧
      ((∃ v ∈ LOCAL_VOICE_OPTIONS, v.name = "Nope") →
        ∃ pre post, LOCAL_VOICE_OPTIONS = pre ++ ve :: post ∧
          ve.name = "Nope" ∧ ∀ v ∈ pre, v.name ≠ "Nope") ∧
      ((∀ v ∈ LOCAL_VOICE_OPTIONS, v.name ≠ "Nope") →
        ve = LOCAL_VOICE_OPTIONS.head (by decide)) ∧
      (∀ synth saveDialog textBox, pyStrip textBox ≠ [] →
        generate_voice LOCAL_VOICE_OPTIONS "Nope" synth saveDialog textBox =
          some (.started ve.id
            (worker synth ve.id saveDialog (pyStrip textBox)))) ∧
      (∀ synth fs textBox,
        preview_voice LOCAL_VOICE_OPTIONS "Nope" synth fs textBox =
          some (ve.id, worker_preview synth ve.id fs)) :=
  voice_resolution_never_fails LOCAL_VOICE_OPTIONS (by decide) "Nope"

theorem runChunks_first_error
    (synth : List Char → String → Except String Audio) (vm : String) :
    ∀ (cs : List (List Char)) (i : Nat) (hi : i < cs.length) (e : String),
      synth (cs.get ⟨i, hi⟩) vm = .error e →
      (∀ j (hj : j < i), ∃ a, synth (cs.get ⟨j, Nat.lt_trans hj hi⟩) vm = .ok a) →
      runChunks synth vm cs = (cs.take (i + 1), .error e) := by
  intro cs
  induction cs with
  | nil =>
    intro i hi
    exact absurd hi (by simp)
  | cons c t ih =>
    intro i hi e hfail hok
    cases i with
    | zero =>
      have hc : synth c vm = .error e := hfail
      unfold runChunks
      rw [hc]
      rfl
    | succ n =>
      obtain ⟨a, ha⟩ := hok 0 (Nat.succ_pos n)
      have hc : synth c vm = .ok a := ha
      unfold runChunks
      rw [hc]
      have hn : n < t.length := Nat.lt_of_succ_lt_succ hi
      have hfail2 : synth (t.get ⟨n, hn⟩) vm = .error e := by
        simpa using hfail
      have hok2 : ∀ j (hj : j < n),
          ∃ b, synth (t.get ⟨j, Nat.lt_trans hj hn⟩) vm = .ok b := by
        intro j hj
        obtain ⟨b, hb⟩ := hok (j + 1) (Nat.succ_lt_succ hj)
        exact ⟨b, by simpa using hb⟩
      rw [ih n hn e hfail2 hok2]
      rfl

/-- C3: if synthesis of some chunk raises (chunk `i` fails after chunks
`0..i-1` succeeded), the worker makes exactly one synthesis call per chunk
up to and including chunk `i` — no retries, no skipping — shows the error,
and writes no file: the write step is never reached. -/
theorem chunk_failure_aborts_without_file
    (synth : List Char → String → Except String Audio) (voice_model : String)
    (saveDialog : Option String) (text_prompt : List Char) (i : Nat)
    (e : String) (hi : i < (textwrapWrap 250 text_prompt).length)
    (hfail : synth ((textwrapWrap 250 text_prompt).get ⟨i, hi⟩) voice_model =
      .error e)
    (hok : ∀ j (hj : j < i), ∃ a,
      synth ((textwrapWrap 250 text_prompt).get ⟨j, Nat.lt_trans hj hi⟩)
        voice_model = .ok a) :
    worker synth voice_model saveDialog text_prompt =
      ⟨((textwrapWrap 250 text_prompt).take (i + 1)).map
          (fun c => (c, voice_model)),
        .errorShown e, none⟩ := by
  have hr := runChunks_first_error synth voice_model
    (textwrapWrap 250 text_prompt) i hi e hfail hok
  simp only [worker, hr]

/-- C3 witness: a synthesizer that raises on the single chunk of "boom"
aborts the generation with an error and no file. -/
theorem chunk_failure_aborts_without_file_witness :
    worker (fun _ _ => .error "E") "v" (some "out.wav") "boom".data =
      ⟨((textwrapWrap 250 "boom".data).take 1).map (fun c => (c, "v")),
        .errorShown "E", none⟩ :=
  chunk_failure_aborts_without_file (fun _ _ => .error "E") "v"
    (some "out.wav") "boom".data 0 "E" (by decide) rfl
    (fun j hj => absurd hj (Nat.not_lt_zero j))

/-- C10: the preview worker is independent of the text box contents, always
synthesizes the one fixed sample phrase with the resolved voice id first,
and on success writes the result to the fixed relative path
`preview_sample.wav` — overwriting whatever any previous run left there —
before playing that same file back. -/
theorem preview_fixed_sample_and_path (voice_catalog : List VoiceEntry)
    (hne : voice_catalog ≠ []) (selected_name : String)
    (synth : List Char → String → Except String Audio)
    (fs : String → Option Audio) (t1 t2 : List Char) :
    preview_voice voice_catalog selected_name synth fs t1 =
      preview_voice voice_catalog selected_name synth fs t2 ∧
    ∃ vid r,
      preview_voice voice_catalog selected_name synth fs t1 = some (vid, r) ∧
      r.events.head? = some (.synthCall preview_sample_text vid) ∧
      ∀ a, synth preview_sample_text vid = .ok a →
        r.events = [.synthCall preview_sample_text vid,
                    .fileWrite "preview_sample.wav" a,
                    .playFile "preview_sample.wav"] ∧
        r.fs "preview_sample.wav" = some a := by
  refine ⟨rfl, ?_⟩
  cases voice_catalog with
  | nil => exact absurd rfl hne
  | cons c rest =>
    have hres : preview_voice (c :: rest) selected_name synth fs t1 =
        some ((((c :: rest).find?
            (fun v => v.name == selected_name)).getD c).id,
          worker_preview synth
            (((c :: rest).find?
              (fun v => v.name == selected_name)).getD c).id fs) := rfl
    refine ⟨_, _, hres, ?_, ?_⟩
    · unfold worker_preview
      cases hs : synth preview_sample_text
          (((c :: rest).find? (fun v => v.name == selected_name)).getD c).id <;>
        rfl
    · intro a ha
      simp [worker_preview, ha]

/-- C10 witness: with an empty filesystem and a succeeding synthesizer, the
preview writes `preview_sample.wav` and plays it, for two different text-box
contents. -/
theorem preview_fixed_sample_and_path_witness :
    preview_voice LOCAL_VOICE_OPTIONS "Nope" (fun _ _ => .ok [2])
        (fun _ => none) [] =
      preview_voice LOCAL_VOICE_OPTIONS "Nope" (fun _ _ => .ok [2])
        (fun _ => none) ['a'] ∧
    ∃ vid r,
      preview_voice LOCAL_VOICE_OPTIONS "Nope" (fun _ _ => .ok [2])
          (fun _ => none) [] = some (vid, r) ∧
      r.events.head? = some (.synthCall preview_sample_text vid) ∧
      ∀ a, (fun (_ : List Char) (_ : String) =>
          (.ok [2] : Except String Audio)) preview_sample_text vid = .ok a →
        r.events = [.synthCall preview_sample_text vid,
                    .fileWrite "preview_sample.wav" a,
                    .playFile "preview_sample.wav"] ∧
        r.fs "preview_sample.wav" = some a :=
  preview_fixed_sample_and_path LOCAL_VOICE_OPTIONS (by decide) "Nope"
    (fun _ _ => .ok [2]) (fun _ => none) [] ['a']

end Chekaru
